import Mathlib

/-!
Verification of the sharing/invite engine of `twistedcaldav/sharing.py` and of the
principal-hierarchy and default-ACL behavior pinned by
`twistedcaldav/directory/test/test_principal.py`.

The Python source is embedded shallowly: the SQLite-backed invite table becomes a
list of rows, the uuid4 invite-UID generator becomes a monotone counter supply,
Python dicts built by the XML parsing loop become insertion-ordered association
lists, and the Deferred-driven control flow of `_processInviteDoc` becomes a pure
function that additionally records, in order, one event per per-user mutation and
one event for the final validation sweep.
-/

/-- The two access XML elements `customxml.ReadAccess` and
`customxml.ReadWriteAccess` that can appear in an invite set/remove element. -/
inductive AccessXML
  | readAccess
  | readWriteAccess
deriving DecidableEq

/-- Embedding of the module-level map `inviteAccessMapFromXML`
(`ReadAccess` to the string "read-only", `ReadWriteAccess` to "read-write"). -/
def inviteAccessMapFromXML : AccessXML → String
  | AccessXML.readAccess => "read-only"
  | AccessXML.readWriteAccess => "read-write"

/-- Embedding of class `Invite`: one row of the INVITE table.  The uuid4-generated
`inviteuid` string is abstracted to a `Nat` drawn from a monotone supply. -/
structure Invite where
  inviteuid : Nat
  userid : String
  access : String
  state : String
  summary : String
deriving DecidableEq

/-- The invite store: the rows of the INVITE table of `InvitesDatabase`. -/
abbrev InviteStore := List Invite

/-- Embedding of `InvitesDatabase.addOrUpdateRecord`: SQLite
`insert or replace into INVITE` with both USERID and INVITEUID declared unique
deletes every row conflicting on either unique column and inserts the new row. -/
def addOrUpdateRecord (st : InviteStore) (r : Invite) : InviteStore :=
  st.filter (fun x => x.userid ≠ r.userid ∧ x.inviteuid ≠ r.inviteuid) ++ [r]

/-- Embedding of `InvitesDatabase.removeRecordForUserID`
(`delete from INVITE where USERID = :1`). -/
def removeRecordForUserID (st : InviteStore) (userid : String) : InviteStore :=
  st.filter (fun x => x.userid ≠ userid)

/-- Embedding of `InvitesDatabase.removeRecordForInviteUID`
(`delete from INVITE where INVITEUID = :1`). -/
def removeRecordForInviteUID (st : InviteStore) (inviteUID : Nat) : InviteStore :=
  st.filter (fun x => x.inviteuid ≠ inviteUID)

/-- Embedding of `InvitesDatabase.recordForUserID`
(`select * from INVITE where USERID = :1`, first row). -/
def recordForUserID (st : InviteStore) (userid : String) : Option Invite :=
  st.find? (fun x => x.userid = userid)

/-- Code-point lexicographic comparison of character lists: the text ordering
SQLite's default collation and Python's `sorted` apply to these identifier
strings.  Structural recursion, hence evaluable; proven below to agree with
the standard `String` order. -/
def charListLe : List Char → List Char → Bool
  | [], _ => true
  | _ :: _, [] => false
  | c1 :: t1, c2 :: t2 =>
      if c1 = c2 then charListLe t1 t2
      else decide (c1 < c2)

/-- Code-point lexicographic comparison of strings. -/
def strLe (a b : String) : Bool := charListLe a.data b.data

theorem charListLe_iff_not_lt : ∀ (x y : List Char), charListLe x y = true ↔ ¬ y < x := by
  intro x
  induction x with
  | nil =>
      intro y
      constructor
      · intro _ h
        cases h
      · intro _
        rfl
  | cons c1 t1 ih =>
      intro y
      cases y with
      | nil =>
          constructor
          · intro h
            simp [charListLe] at h
          · intro h
            exact absurd List.Lex.nil h
      | cons c2 t2 =>
          by_cases heq : c1 = c2
          · subst heq
            have h1 : charListLe (c1 :: t1) (c1 :: t2) = charListLe t1 t2 := by
              simp [charListLe]
            rw [h1, ih t2]
            constructor
            · intro h hlt
              cases hlt with
              | cons h4 => exact h h4
              | rel h2 => exact lt_irrefl c1 h2
            · intro h h4
              exact h (List.Lex.cons h4)
          · have h1 : charListLe (c1 :: t1) (c2 :: t2) = decide (c1 < c2) := by
              simp [charListLe, heq]
            rw [h1]
            rcases lt_or_gt_of_ne heq with hlt | hgt
            · simp only [decide_eq_true_eq]
              constructor
              · intro _ hc
                cases hc with
                | cons h4 => exact heq rfl
                | rel h2 => exact lt_asymm h2 hlt
              · intro _
                exact hlt
            · simp only [decide_eq_true_eq]
              constructor
              · intro hc
                exact absurd hc (not_lt_of_gt hgt)
              · intro hc
                exact absurd
                  (show c2 :: t2 < c1 :: t1 from List.Lex.rel (show c2 < c1 from hgt)) hc

theorem strLe_iff_le (a b : String) : strLe a b = true ↔ a ≤ b := by
  unfold strLe
  rw [charListLe_iff_not_lt, ← not_lt]
  constructor
  · intro h hc
    exact h (String.lt_iff_toList_lt.1 hc)
  · intro h hc
    exact h (String.lt_iff_toList_lt.2 hc)

/-- Row order used by `select * from INVITE order by USERID`. -/
def inviteLe (a b : Invite) : Prop := strLe a.userid b.userid = true

instance : DecidableRel inviteLe :=
  fun a b => inferInstanceAs (Decidable (strLe a.userid b.userid = true))

instance : IsTotal Invite inviteLe :=
  ⟨fun a b => (le_total a.userid b.userid).imp
    (strLe_iff_le a.userid b.userid).2 (strLe_iff_le b.userid a.userid).2⟩

instance : IsTrans Invite inviteLe :=
  ⟨fun a b c h1 h2 => (strLe_iff_le a.userid c.userid).2
    (le_trans ((strLe_iff_le a.userid b.userid).1 h1)
      ((strLe_iff_le b.userid c.userid).1 h2))⟩

/-- Embedding of `InvitesDatabase.allRecords`
(`select * from INVITE order by USERID`): the rows sorted by USERID ascending. -/
def allRecords (st : InviteStore) : List Invite :=
  List.insertionSort inviteLe st

/-- A principal resource, as far as sharing needs it: its principal URL. -/
structure Principal where
  principalURL : String
deriving DecidableEq

/-- The external directory collaborator used by `validUserIDForShare`:
resolution of a calendar user address to a principal. -/
structure Directory where
  principalForCalendarUserAddress : String → Option Principal

/-- Embedding of `SharingMixin.validUserIDForShare`: resolve the user id as a
principal and return that principal's URL, else `none` (external users are
hard-coded off in the source). -/
def validUserIDForShare (dir : Directory) (userid : String) : Option String :=
  match dir.principalForCalendarUserAddress userid with
  | some principal => some principal.principalURL
  | none => none

/-- The loop body of `SharingMixin.validateInvites`: iterate over the snapshot of
`allRecords`, rewriting to state INVALID any record whose userid no longer
validates and whose state is not already INVALID. -/
def validateInvitesLoop (dir : Directory) : List Invite → InviteStore → InviteStore
  | [], st => st
  | r :: rest, st =>
      if validUserIDForShare dir r.userid = none ∧ r.state ≠ "INVALID" then
        validateInvitesLoop dir rest
          (addOrUpdateRecord st ⟨r.inviteuid, r.userid, r.access, "INVALID", r.summary⟩)
      else
        validateInvitesLoop dir rest st

/-- Embedding of `SharingMixin.validateInvites`. -/
def validateInvites (dir : Directory) (st : InviteStore) : InviteStore :=
  validateInvitesLoop dir (allRecords st) st

/-- The sharing-relevant mutable state of one shared collection: the invite store
plus the supply counter abstracting the `uuid4()` invite-UID generator (each
generated UID is the current counter value, and the counter then increments, so
generated UIDs never repeat). -/
structure ShareState where
  store : InviteStore
  uidSupply : Nat
deriving DecidableEq

/-- Embedding of `SharingMixin.inviteSingleUserToShare`: generate a fresh
inviteuid and upsert a NEEDS-ACTION row for the user. -/
def inviteSingleUserToShare (s : ShareState) (userid : String) (ace : AccessXML)
    (summary : String) : ShareState :=
  ⟨addOrUpdateRecord s.store
      ⟨s.uidSupply, userid, inviteAccessMapFromXML ace, "NEEDS-ACTION", summary⟩,
    s.uidSupply + 1⟩

/-- Embedding of `SharingMixin.uninviteSingleUserFromShare`: delete the row for
the (raw) userid. -/
def uninviteSingleUserFromShare (s : ShareState) (userid : String) : ShareState :=
  ⟨removeRecordForUserID s.store userid, s.uidSupply⟩

/-- Embedding of `SharingMixin.inviteSingleUserUpdateToShare`: "Just update
existing" - delegates to `inviteSingleUserToShare` with the new access, ignoring
the old access. -/
def inviteSingleUserUpdateToShare (s : ShareState) (userid : String)
    (acesOLD : Option (List AccessXML)) (aceNEW : AccessXML) (summary : String) :
    ShareState :=
  inviteSingleUserToShare s userid aceNEW summary

/-- Embedding of `SharingMixin.inviteUserToShare`: validate the userid first and
return False without touching storage when it does not resolve; otherwise invite
the single (normalized) user and return True. -/
def inviteUserToShare (dir : Directory) (s : ShareState) (userid : String)
    (ace : AccessXML) (summary : String) : ShareState × Bool :=
  match validUserIDForShare dir userid with
  | none => (s, false)
  | some normalized => (inviteSingleUserToShare s normalized ace summary, true)

/-- Embedding of `SharingMixin.uninviteUserToShare`: the userid is deliberately
not validated; the row for the raw userid is removed and True is returned. -/
def uninviteUserToShare (s : ShareState) (userid : String) : ShareState × Bool :=
  (uninviteSingleUserFromShare s userid, true)

/-- Embedding of `SharingMixin.inviteUserUpdateToShare`: validate the userid
first, return False when it does not resolve, else update the single
(normalized) user with the new access and return True. -/
def inviteUserUpdateToShare (dir : Directory) (s : ShareState) (userid : String)
    (aceOLD : Option (List AccessXML)) (aceNEW : AccessXML) (summary : String) :
    ShareState × Bool :=
  match validUserIDForShare dir userid with
  | none => (s, false)
  | some normalized =>
      (inviteSingleUserUpdateToShare s normalized aceOLD aceNEW summary, true)

/-- The fields a `CS:invite-set` XML element yields after the child-scanning
loop of `_handleInviteSet`: each is `none` when the corresponding child element
(`DAV:href`, access element, `CS:summary`) is absent. -/
structure InviteSetElem where
  userid : Option String
  access : Option AccessXML
  summary : Option String
deriving DecidableEq

/-- The fields a `CS:invite-remove` XML element yields after the child-scanning
loop of `_handleInviteRemove`. -/
structure InviteRemoveElem where
  userid : Option String
  access : List AccessXML
deriving DecidableEq

/-- One child of the `CS:invite-share` document processed by
`_processInviteDoc`. -/
inductive InviteItem
  | set (e : InviteSetElem)
  | remove (e : InviteRemoveElem)
deriving DecidableEq

/-- The errors `xmlPOSTNoAuth` can raise while handling an invite document:
the three FORBIDDEN `valid-request-content-type` errors of `_handleInviteSet`
and `_handleInviteRemove`, plus the crash of `_processInviteDoc` unpacking the
`None` that `_handleInviteSet` returns when every mandatory field is present
but one of the strings is empty (Python falls through all the `is None`
checks and returns `None`, and the caller's tuple unpacking raises). -/
inductive SharingError
  | missingHref
  | missingAccess
  | missingSummary
  | unpackNone
deriving DecidableEq

/-- Embedding of `_handleInviteSet` after the child scan: mirror of
`if userid and access and summary: return (userid, access, summary)` followed by
the three `is None` checks (an empty string is falsy in Python, so it fails the
first test yet passes every `is None` check, reaching the implicit
`return None`). -/
def handleInviteSet (e : InviteSetElem) :
    Except SharingError (String × AccessXML × String) :=
  match e.userid, e.access, e.summary with
  | some u, some a, some sm =>
      if u ≠ "" ∧ sm ≠ "" then Except.ok (u, a, sm)
      else Except.error SharingError.unpackNone
  | none, _, _ => Except.error SharingError.missingHref
  | _, none, _ => Except.error SharingError.missingAccess
  | _, _, none => Except.error SharingError.missingSummary

/-- Embedding of `_handleInviteRemove` after the child scan: a missing href is
an error; an empty access list becomes `none`, a non-empty one is kept. -/
def handleInviteRemove (e : InviteRemoveElem) :
    Except SharingError (String × Option (List AccessXML)) :=
  match e.userid with
  | none => Except.error SharingError.missingHref
  | some u => Except.ok (u, if e.access.isEmpty then none else some e.access)

/-- Python dict assignment `d[k] = v` on an insertion-ordered association list:
replace the value in place when the key exists, else append. -/
def alistInsert {β : Type} (l : List (String × β)) (k : String) (v : β) :
    List (String × β) :=
  if l.any (fun p => p.1 = k) then
    l.map (fun p => if p.1 = k then (k, v) else p)
  else
    l ++ [(k, v)]

/-- The parsing loop at the top of `_processInviteDoc`: walk the children of the
invite document accumulating `setDict` and `removeDict`; any error from
`_handleInviteSet` or `_handleInviteRemove` aborts the whole request here,
before any mutation. -/
def parseInviteDoc :
    List InviteItem → List (String × AccessXML × String) →
    List (String × Option (List AccessXML)) →
    Except SharingError
      (List (String × AccessXML × String) × List (String × Option (List AccessXML)))
  | [], setDict, removeDict => Except.ok (setDict, removeDict)
  | InviteItem.set e :: rest, setDict, removeDict =>
      match handleInviteSet e with
      | Except.error err => Except.error err
      | Except.ok (u, a, sm) =>
          parseInviteDoc rest (alistInsert setDict u (a, sm)) removeDict
  | InviteItem.remove e :: rest, setDict, removeDict =>
      match handleInviteRemove e with
      | Except.error err => Except.error err
      | Except.ok (u, a) =>
          parseInviteDoc rest setDict (alistInsert removeDict u a)

/-- One recorded effect of `_processInviteDoc`: a per-user mutation (one loop
iteration of the remove, set or update loop) or the final call to
`validateInvites`. -/
inductive BatchEvent
  | removeUser (u : String)
  | setUser (u : String)
  | updateUser (u : String)
  | sweep
deriving DecidableEq

/-- Python `set.add` on a duplicate-free list. -/
def setAdd (l : List String) (u : String) : List String :=
  if u ∈ l then l else l ++ [u]

/-- The removal loop of `_processInviteDoc`: for each remaining entry of
`removeDict`, uninvite and classify the user as ok or bad by the result. -/
def removePhase :
    ShareState → List String → List String → List BatchEvent →
    List (String × Option (List AccessXML)) →
    ShareState × List String × List String × List BatchEvent
  | s, ok, bad, evs, [] => (s, ok, bad, evs)
  | s, ok, bad, evs, (u, _) :: rest =>
      let step := uninviteUserToShare s u
      removePhase step.1
        (if step.2 then setAdd ok u else ok)
        (if step.2 then bad else setAdd bad u)
        (evs ++ [BatchEvent.removeUser u]) rest

/-- The set loop of `_processInviteDoc`: for each remaining entry of `setDict`,
invite and classify the user as ok or bad by the result. -/
def setPhase (dir : Directory) :
    ShareState → List String → List String → List BatchEvent →
    List (String × AccessXML × String) →
    ShareState × List String × List String × List BatchEvent
  | s, ok, bad, evs, [] => (s, ok, bad, evs)
  | s, ok, bad, evs, (u, a, sm) :: rest =>
      let step := inviteUserToShare dir s u a sm
      setPhase dir step.1
        (if step.2 then setAdd ok u else ok)
        (if step.2 then bad else setAdd bad u)
        (evs ++ [BatchEvent.setUser u]) rest

/-- The update loop of `_processInviteDoc`: for each entry of
`updateinviteDict` (the collapsed remove+set pairs, each carrying the removed
access, the new access and the new summary), update and classify the user as ok
or bad by the result. -/
def updatePhase (dir : Directory) :
    ShareState → List String → List String → List BatchEvent →
    List (String × Option (List AccessXML) × AccessXML × String) →
    ShareState × List String × List String × List BatchEvent
  | s, ok, bad, evs, [] => (s, ok, bad, evs)
  | s, ok, bad, evs, (u, aOld, a, sm) :: rest =>
      let step := inviteUserUpdateToShare dir s u aOld a sm
      updatePhase dir step.1
        (if step.2 then setAdd ok u else ok)
        (if step.2 then bad else setAdd bad u)
        (evs ++ [BatchEvent.updateUser u]) rest

/-- The relation `sortStrings` sorts by: code-point lexicographic order,
agreeing with the standard `String` order by `strLe_iff_le`. -/
def strLeB (a b : String) : Prop := strLe a b = true

instance : DecidableRel strLeB :=
  fun a b => inferInstanceAs (Decidable (strLe a b = true))

instance : IsTotal String strLeB :=
  ⟨fun a b => (le_total a b).imp (strLe_iff_le a b).2 (strLe_iff_le b a).2⟩

instance : IsTrans String strLeB :=
  ⟨fun a b c h1 h2 => (strLe_iff_le a c).2
    (le_trans ((strLe_iff_le a b).1 h1) ((strLe_iff_le b c).1 h2))⟩

/-- Python `sorted` on a collection of user ids: ascending lexical order. -/
def sortStrings (l : List String) : List String :=
  List.insertionSort strLeB l

/-- The response `_processInviteDoc` returns: a plain OK response code, or a
multi-status response listing user ids with per-user response codes. -/
inductive BatchResponse
  | okResp
  | multiStatus (entries : List (String × Nat))
deriving DecidableEq

/-- Everything `_processInviteDoc` produces: the final share state, the two
outcome sets, the ordered record of effects, and the rendered response. -/
structure BatchOutcome where
  state : ShareState
  okusers : List String
  badusers : List String
  events : List BatchEvent
  response : BatchResponse
deriving DecidableEq

/-- The list `sameUseridInRemoveAndSet` of `_processInviteDoc`: the userids of
`removeDict` that also occur in `setDict`. -/
def collapseSame (setDict0 : List (String × AccessXML × String))
    (removeDict0 : List (String × Option (List AccessXML))) : List String :=
  (removeDict0.map (fun p => p.1)).filter (fun u => setDict0.any (fun p => p.1 = u))

/-- The `updateinviteDict` of `_processInviteDoc`: for each collapsed userid,
the removed access, the new access and the new summary. -/
def mkUpdateDict (setDict0 : List (String × AccessXML × String))
    (removeDict0 : List (String × Option (List AccessXML))) :
    List (String × Option (List AccessXML) × AccessXML × String) :=
  (collapseSame setDict0 removeDict0).filterMap (fun u =>
    match removeDict0.find? (fun p => p.1 = u), setDict0.find? (fun p => p.1 = u) with
    | some pr, some ps => some (u, pr.2, ps.2.1, ps.2.2)
    | _, _ => none)

/-- The three mutation loops of `_processInviteDoc`: collapse every userid
present in both dicts into `updateinviteDict`, deleting it from both, then run
the remove, set and update loops in that order, threading the share state, the
outcome sets and the event record. -/
def runPhases (dir : Directory) (s0 : ShareState)
    (setDict0 : List (String × AccessXML × String))
    (removeDict0 : List (String × Option (List AccessXML))) :
    ShareState × List String × List String × List BatchEvent :=
  let same := collapseSame setDict0 removeDict0
  let removeDict := removeDict0.filter (fun p => p.1 ∉ same)
  let setDict := setDict0.filter (fun p => p.1 ∉ same)
  let r1 := removePhase s0 [] [] [] removeDict
  let r2 := setPhase dir r1.1 r1.2.1 r1.2.2.1 r1.2.2.2 setDict
  updatePhase dir r2.1 r2.2.1 r2.2.2.1 r2.2.2.2 (mkUpdateDict setDict0 removeDict0)

/-- The reconciliation half of `_processInviteDoc`, after the parsing loop:
run the three mutation loops, call `validateInvites` once at the end, and
render a multi-status response only when some user was bad, listing sorted ok
users then sorted bad users. -/
def reconcileParsed (dir : Directory) (s0 : ShareState)
    (setDict0 : List (String × AccessXML × String))
    (removeDict0 : List (String × Option (List AccessXML))) : BatchOutcome :=
  let r3 := runPhases dir s0 setDict0 removeDict0
  let sFinal : ShareState := ⟨validateInvites dir r3.1.store, r3.1.uidSupply⟩
  let evs := r3.2.2.2 ++ [BatchEvent.sweep]
  let okusers := r3.2.1
  let badusers := r3.2.2.1
  let resp : BatchResponse :=
    if badusers ≠ [] then
      BatchResponse.multiStatus
        ((sortStrings okusers).map (fun u => (u, 200)) ++
          (sortStrings badusers).map (fun u => (u, 403)))
    else
      BatchResponse.okResp
  ⟨sFinal, okusers, badusers, evs, resp⟩

/-- Embedding of `_processInviteDoc`: parse the document into `setDict` and
`removeDict` (any malformed element aborts the whole request here), then
reconcile. -/
def processInviteDoc (dir : Directory) (s0 : ShareState) (doc : List InviteItem) :
    Except SharingError BatchOutcome := do
  let (setDict0, removeDict0) ← parseInviteDoc doc [] []
  pure (reconcileParsed dir s0 setDict0 removeDict0)

/-- A node of the principal provisioning hierarchy: the provisioning root or a
record-type bucket under it. -/
inductive PrincipalNode
  | root
  | typeBucket (recordType : String)
deriving DecidableEq

/-- Modelled from the test assertions of `test_hierarchy` in
`test_principal.py` (the implementation `directory/principal.py` is not under
src, only its tests): `principalCollectionURL()` of the provisioning root is
the root URL, and of a type bucket is the bucket's own
`typeURL = provisioningURL + recordType + "/"`. -/
def principalCollectionURL (rootURL : String) : PrincipalNode → String
  | PrincipalNode.root => rootURL
  | PrincipalNode.typeBucket recordType => rootURL ++ recordType ++ "/"

/-- Modelled from the test assertions of `test_hierarchy` in
`test_principal.py`: `principalCollections()` of the root, of every type bucket
and of every principal reports exactly the provisioning root URL. -/
def principalCollectionsURLs (rootURL : String) (node : PrincipalNode) :
    List String :=
  [rootURL]

/-- The bucket's own URL, `typeURL = provisioningURL + recordType + "/"`, as
computed in `test_hierarchy`. -/
def typeBucketURL (rootURL : String) (recordType : String) : String :=
  rootURL ++ recordType ++ "/"

/-- An access-control-entry principal matcher (spec section 4.2). -/
inductive PrincipalMatcher
  | specific (url : String)
  | authenticated
  | unauthenticated
  | all
deriving DecidableEq

/-- A privilege (spec and test use Read and Write). -/
inductive Privilege
  | read
  | write
deriving DecidableEq

/-- One access-control entry: matcher, privilege set, grant or deny. -/
structure ACE where
  matcher : PrincipalMatcher
  privileges : List Privilege
  grant : Bool
deriving DecidableEq

/-- The requesting principal of a privilege check: a specific authenticated
principal, the absent (unauthenticated) requester, or one of the pseudo
principals the tests pass to `checkPrivileges` (`davxml.All()`,
`davxml.Authenticated()`, `davxml.Unauthenticated()`). -/
inductive Requester
  | principal (url : String)
  | anonymous
  | allPseudo
  | authPseudo
  | unauthPseudo
deriving DecidableEq

/-- Modelled from the spec: a matcher matches if the requester is exactly the
named principal, or is authenticated and the matcher is Authenticated, or the
matcher is All, or the matcher is Unauthenticated and the requester is absent;
the pseudo principals of the test match exactly their namesake matchers. -/
def matcherMatches : PrincipalMatcher → Requester → Bool
  | PrincipalMatcher.specific u, Requester.principal v => u = v
  | PrincipalMatcher.authenticated, Requester.principal _ => true
  | PrincipalMatcher.authenticated, Requester.authPseudo => true
  | PrincipalMatcher.all, _ => true
  | PrincipalMatcher.unauthenticated, Requester.anonymous => true
  | PrincipalMatcher.unauthenticated, Requester.unauthPseudo => true
  | _, _ => false

/-- The outcome of a privilege check. -/
inductive Decision
  | allowed
  | denied
deriving DecidableEq

/-- Modelled from the spec: the privilege evaluator scans the ACL in order; the
first entry whose matcher matches and whose privilege set contains the
requested privilege decides (grant gives Allowed, deny gives Denied); no
matching entry gives Denied (default deny). -/
def aclCheck (acl : List ACE) (req : Requester) (priv : Privilege) : Decision :=
  match acl with
  | [] => Decision.denied
  | ace :: rest =>
      if matcherMatches ace.matcher req && ace.privileges.contains priv then
        (if ace.grant then Decision.allowed else Decision.denied)
      else
        aclCheck rest req priv

/-- Modelled from the spec: the default ACL of every newly created principal
resource and every provisioning-hierarchy resource grants Authenticated
principals the read-only privilege and grants nothing else. -/
def defaultACL : List ACE :=
  [⟨PrincipalMatcher.authenticated, [Privilege.read], true⟩]

instance {ε α : Type} [DecidableEq ε] [DecidableEq α] : DecidableEq (Except ε α) :=
  fun x y =>
    match x, y with
    | Except.ok a, Except.ok b =>
        if h : a = b then isTrue (by rw [h])
        else isFalse (fun hc => h (Except.ok.inj hc))
    | Except.error a, Except.error b =>
        if h : a = b then isTrue (by rw [h])
        else isFalse (fun hc => h (Except.error.inj hc))
    | Except.ok _, Except.error _ => isFalse (fun hc => Except.noConfusion hc)
    | Except.error _, Except.ok _ => isFalse (fun hc => Except.noConfusion hc)

/-- A concrete directory for instantiating theorems: alice and bob resolve (and
their principal URLs resolve to themselves, as principal URLs are calendar user
addresses); every other id is unresolvable. -/
def exampleDir : Directory :=
  ⟨fun u =>
    if u = "alice" then some ⟨"/principals/users/alice"⟩
    else if u = "bob" then some ⟨"/principals/users/bob"⟩
    else if u = "/principals/users/alice" then some ⟨"/principals/users/alice"⟩
    else if u = "/principals/users/bob" then some ⟨"/principals/users/bob"⟩
    else none⟩

/-- A concrete share state: one stored invite for alice, already accepted. -/
def exampleShare : ShareState :=
  ⟨[⟨7, "/principals/users/alice", "read-only", "ACCEPTED", "old"⟩], 100⟩

/-- The share-state invariant enforced by the INVITE schema and the uuid
generator: USERID and INVITEUID are unique columns, and every stored inviteuid
was produced by an earlier draw from the supply. -/
def goodStore (s : ShareState) : Prop :=
  (s.store.map (fun x => x.userid)).Nodup ∧
  (s.store.map (fun x => x.inviteuid)).Nodup ∧
  ∀ inv ∈ s.store, inv.inviteuid < s.uidSupply

instance (s : ShareState) : Decidable (goodStore s) := by
  unfold goodStore
  exact inferInstance

theorem mem_addOrUpdateRecord {st : InviteStore} {r x : Invite} :
    x ∈ addOrUpdateRecord st r ↔
      (x ∈ st ∧ x.userid ≠ r.userid ∧ x.inviteuid ≠ r.inviteuid) ∨ x = r := by
  simp [addOrUpdateRecord, List.mem_filter, List.mem_append, and_assoc]

theorem nodup_userid_addOrUpdateRecord {st : InviteStore} {r : Invite}
    (h : (st.map (fun x => x.userid)).Nodup) :
    ((addOrUpdateRecord st r).map (fun x => x.userid)).Nodup := by
  unfold addOrUpdateRecord
  rw [List.map_append]
  refine List.Nodup.append ?_ (List.nodup_singleton _) ?_
  · exact h.sublist (List.Sublist.map _ (List.filter_sublist _))
  · intro a ha hb
    simp only [List.map_singleton, List.mem_singleton] at hb
    subst hb
    rcases List.mem_map.1 ha with ⟨x, hx, hxa⟩
    rcases List.mem_filter.1 hx with ⟨_, hq⟩
    simp only [decide_eq_true_eq] at hq
    exact hq.1 hxa

theorem nodup_inviteuid_addOrUpdateRecord {st : InviteStore} {r : Invite}
    (h : (st.map (fun x => x.inviteuid)).Nodup) :
    ((addOrUpdateRecord st r).map (fun x => x.inviteuid)).Nodup := by
  unfold addOrUpdateRecord
  rw [List.map_append]
  refine List.Nodup.append ?_ (List.nodup_singleton _) ?_
  · exact h.sublist (List.Sublist.map _ (List.filter_sublist _))
  · intro a ha hb
    simp only [List.map_singleton, List.mem_singleton] at hb
    subst hb
    rcases List.mem_map.1 ha with ⟨x, hx, hxa⟩
    rcases List.mem_filter.1 hx with ⟨_, hq⟩
    simp only [decide_eq_true_eq] at hq
    exact hq.2 hxa

theorem rowsFor_addOrUpdateRecord (st : InviteStore) (r : Invite) :
    (addOrUpdateRecord st r).filter (fun x => x.userid = r.userid) = [r] := by
  unfold addOrUpdateRecord
  rw [List.filter_append]
  have h1 : (st.filter (fun x => decide (x.userid ≠ r.userid ∧ x.inviteuid ≠ r.inviteuid))).filter
      (fun x => decide (x.userid = r.userid)) = [] := by
    rw [List.filter_eq_nil_iff]
    intro a ha
    rcases List.mem_filter.1 ha with ⟨_, hq⟩
    simp only [decide_eq_true_eq] at hq
    simp only [decide_eq_true_eq]
    exact hq.1
  rw [h1]
  simp

theorem recordForUserID_addOrUpdateRecord (st : InviteStore) (r : Invite) :
    recordForUserID (addOrUpdateRecord st r) r.userid = some r := by
  unfold addOrUpdateRecord recordForUserID
  rw [List.find?_append]
  have h1 : (st.filter (fun x => decide (x.userid ≠ r.userid ∧ x.inviteuid ≠ r.inviteuid))).find?
      (fun x => decide (x.userid = r.userid)) = none := by
    rw [List.find?_eq_none]
    intro a ha
    rcases List.mem_filter.1 ha with ⟨_, hq⟩
    simp only [decide_eq_true_eq] at hq
    simp only [decide_eq_true_eq]
    exact hq.1
  rw [h1]
  simp

theorem goodStore_inviteSingleUserToShare {s : ShareState} {u : String}
    {a : AccessXML} {sm : String} (h : goodStore s) :
    goodStore (inviteSingleUserToShare s u a sm) := by
  obtain ⟨hN, hU, hB⟩ := h
  refine ⟨nodup_userid_addOrUpdateRecord hN, nodup_inviteuid_addOrUpdateRecord hU, ?_⟩
  intro inv hinv
  rcases mem_addOrUpdateRecord.1 hinv with ⟨hmem, _, _⟩ | heq
  · exact Nat.lt_succ_of_lt (hB inv hmem)
  · subst heq
    exact Nat.lt_succ_self _

theorem goodStore_uninviteSingleUserFromShare {s : ShareState} {u : String}
    (h : goodStore s) : goodStore (uninviteSingleUserFromShare s u) := by
  obtain ⟨hN, hU, hB⟩ := h
  refine ⟨?_, ?_, ?_⟩
  · exact hN.sublist (List.Sublist.map _ (List.filter_sublist _))
  · exact hU.sublist (List.Sublist.map _ (List.filter_sublist _))
  · intro inv hinv
    exact hB inv (List.mem_of_mem_filter hinv)

theorem goodStore_inviteUserToShare {dir : Directory} {s : ShareState}
    {u : String} {a : AccessXML} {sm : String} (h : goodStore s) :
    goodStore (inviteUserToShare dir s u a sm).1 := by
  unfold inviteUserToShare
  cases validUserIDForShare dir u with
  | none => exact h
  | some p => exact goodStore_inviteSingleUserToShare h

theorem goodStore_uninviteUserToShare {s : ShareState} {u : String}
    (h : goodStore s) : goodStore (uninviteUserToShare s u).1 :=
  goodStore_uninviteSingleUserFromShare h

theorem goodStore_inviteUserUpdateToShare {dir : Directory} {s : ShareState}
    {u : String} {ao : Option (List AccessXML)} {a : AccessXML} {sm : String}
    (h : goodStore s) : goodStore (inviteUserUpdateToShare dir s u ao a sm).1 := by
  unfold inviteUserUpdateToShare
  cases validUserIDForShare dir u with
  | none => exact h
  | some p => exact goodStore_inviteSingleUserToShare h

theorem mem_setAdd {l : List String} {u v : String} :
    v ∈ setAdd l u ↔ v ∈ l ∨ v = u := by
  unfold setAdd
  split
  · next h =>
      constructor
      · exact fun hv => Or.inl hv
      · rintro (hv | rfl)
        · exact hv
        · exact h
  · next h => simp [List.mem_append]

theorem self_mem_setAdd (l : List String) (u : String) : u ∈ setAdd l u :=
  mem_setAdd.2 (Or.inr rfl)

theorem mem_setAdd_of_mem {l : List String} {v : String} (u : String)
    (h : v ∈ l) : v ∈ setAdd l u :=
  mem_setAdd.2 (Or.inl h)

theorem removePhase_cons (s : ShareState) (ok bad : List String)
    (evs : List BatchEvent) (u : String) (a : Option (List AccessXML))
    (rest : List (String × Option (List AccessXML))) :
    removePhase s ok bad evs ((u, a) :: rest) =
      removePhase (uninviteSingleUserFromShare s u) (setAdd ok u) bad
        (evs ++ [BatchEvent.removeUser u]) rest := rfl

theorem setPhase_cons (dir : Directory) (s : ShareState) (ok bad : List String)
    (evs : List BatchEvent) (u : String) (a : AccessXML) (sm : String)
    (rest : List (String × AccessXML × String)) :
    setPhase dir s ok bad evs ((u, a, sm) :: rest) =
      setPhase dir (inviteUserToShare dir s u a sm).1
        (if (inviteUserToShare dir s u a sm).2 then setAdd ok u else ok)
        (if (inviteUserToShare dir s u a sm).2 then bad else setAdd bad u)
        (evs ++ [BatchEvent.setUser u]) rest := rfl

theorem updatePhase_cons (dir : Directory) (s : ShareState) (ok bad : List String)
    (evs : List BatchEvent) (u : String) (ao : Option (List AccessXML))
    (a : AccessXML) (sm : String)
    (rest : List (String × Option (List AccessXML) × AccessXML × String)) :
    updatePhase dir s ok bad evs ((u, ao, a, sm) :: rest) =
      updatePhase dir (inviteUserUpdateToShare dir s u ao a sm).1
        (if (inviteUserUpdateToShare dir s u ao a sm).2 then setAdd ok u else ok)
        (if (inviteUserUpdateToShare dir s u ao a sm).2 then bad else setAdd bad u)
        (evs ++ [BatchEvent.updateUser u]) rest := rfl

theorem removePhase_events (d : List (String × Option (List AccessXML))) :
    ∀ (s : ShareState) (ok bad : List String) (evs : List BatchEvent),
      (removePhase s ok bad evs d).2.2.2 =
        evs ++ d.map (fun p => BatchEvent.removeUser p.1) := by
  induction d with
  | nil => intro s ok bad evs; simp [removePhase]
  | cons q rest ih =>
      intro s ok bad evs
      obtain ⟨u, a⟩ := q
      rw [removePhase_cons, ih]
      simp

theorem setPhase_events (dir : Directory) (d : List (String × AccessXML × String)) :
    ∀ (s : ShareState) (ok bad : List String) (evs : List BatchEvent),
      (setPhase dir s ok bad evs d).2.2.2 =
        evs ++ d.map (fun p => BatchEvent.setUser p.1) := by
  induction d with
  | nil => intro s ok bad evs; simp [setPhase]
  | cons q rest ih =>
      intro s ok bad evs
      obtain ⟨u, a, sm⟩ := q
      rw [setPhase_cons, ih]
      simp

theorem updatePhase_events (dir : Directory)
    (d : List (String × Option (List AccessXML) × AccessXML × String)) :
    ∀ (s : ShareState) (ok bad : List String) (evs : List BatchEvent),
      (updatePhase dir s ok bad evs d).2.2.2 =
        evs ++ d.map (fun p => BatchEvent.updateUser p.1) := by
  induction d with
  | nil => intro s ok bad evs; simp [updatePhase]
  | cons q rest ih =>
      intro s ok bad evs
      obtain ⟨u, ao, a, sm⟩ := q
      rw [updatePhase_cons, ih]
      simp

theorem removePhase_bad_eq (d : List (String × Option (List AccessXML))) :
    ∀ (s : ShareState) (ok bad : List String) (evs : List BatchEvent),
      (removePhase s ok bad evs d).2.2.1 = bad := by
  induction d with
  | nil => intro s ok bad evs; simp [removePhase]
  | cons q rest ih =>
      intro s ok bad evs
      obtain ⟨u, a⟩ := q
      rw [removePhase_cons, ih]

theorem removePhase_ok_mono (d : List (String × Option (List AccessXML))) :
    ∀ (s : ShareState) (ok bad : List String) (evs : List BatchEvent) (v : String),
      v ∈ ok → v ∈ (removePhase s ok bad evs d).2.1 := by
  induction d with
  | nil => intro s ok bad evs v hv; simpa [removePhase] using hv
  | cons q rest ih =>
      intro s ok bad evs v hv
      obtain ⟨u, a⟩ := q
      rw [removePhase_cons]
      exact ih _ _ _ _ v (mem_setAdd_of_mem u hv)

theorem removePhase_ok_adds (d : List (String × Option (List AccessXML))) :
    ∀ (s : ShareState) (ok bad : List String) (evs : List BatchEvent)
      (u : String) (a : Option (List AccessXML)),
      (u, a) ∈ d → u ∈ (removePhase s ok bad evs d).2.1 := by
  induction d with
  | nil => intro s ok bad evs u a hm; simp at hm
  | cons q rest ih =>
      intro s ok bad evs u a hm
      obtain ⟨u2, a2⟩ := q
      rw [removePhase_cons]
      rcases List.mem_cons.1 hm with heq | hm2
      · have hu : u = u2 := congrArg (fun t => t.1) heq
        subst hu
        exact removePhase_ok_mono rest _ _ _ _ u (self_mem_setAdd ok u)
      · exact ih _ _ _ _ u a hm2

theorem setPhase_ok_mono (dir : Directory) (d : List (String × AccessXML × String)) :
    ∀ (s : ShareState) (ok bad : List String) (evs : List BatchEvent) (v : String),
      v ∈ ok → v ∈ (setPhase dir s ok bad evs d).2.1 := by
  induction d with
  | nil => intro s ok bad evs v hv; simpa [setPhase] using hv
  | cons q rest ih =>
      intro s ok bad evs v hv
      obtain ⟨u, a, sm⟩ := q
      rw [setPhase_cons]
      apply ih
      split
      · exact mem_setAdd_of_mem u hv
      · exact hv

theorem setPhase_bad_mono (dir : Directory) (d : List (String × AccessXML × String)) :
    ∀ (s : ShareState) (ok bad : List String) (evs : List BatchEvent) (v : String),
      v ∈ bad → v ∈ (setPhase dir s ok bad evs d).2.2.1 := by
  induction d with
  | nil => intro s ok bad evs v hv; simpa [setPhase] using hv
  | cons q rest ih =>
      intro s ok bad evs v hv
      obtain ⟨u, a, sm⟩ := q
      rw [setPhase_cons]
      apply ih
      split
      · exact hv
      · exact mem_setAdd_of_mem u hv

theorem setPhase_adds_bad (dir : Directory) (d : List (String × AccessXML × String)) :
    ∀ (s : ShareState) (ok bad : List String) (evs : List BatchEvent)
      (u : String) (a : AccessXML) (sm : String),
      (u, a, sm) ∈ d → validUserIDForShare dir u = none →
      u ∈ (setPhase dir s ok bad evs d).2.2.1 := by
  induction d with
  | nil => intro s ok bad evs u a sm hm; simp at hm
  | cons q rest ih =>
      intro s ok bad evs u a sm hm hres
      obtain ⟨u2, a2, sm2⟩ := q
      rw [setPhase_cons]
      rcases List.mem_cons.1 hm with heq | hm2
      · have hu : u = u2 := congrArg (fun t => t.1) heq
        subst hu
        have hstep : (inviteUserToShare dir s u a2 sm2).2 = false := by
          unfold inviteUserToShare
          rw [hres]
        rw [hstep]
        simp only [Bool.false_eq_true, if_false]
        exact setPhase_bad_mono dir rest _ _ _ _ u (self_mem_setAdd bad u)
      · exact ih _ _ _ _ u a sm hm2 hres

theorem setPhase_adds_ok (dir : Directory) (d : List (String × AccessXML × String)) :
    ∀ (s : ShareState) (ok bad : List String) (evs : List BatchEvent)
      (u : String) (a : AccessXML) (sm : String),
      (u, a, sm) ∈ d → (validUserIDForShare dir u).isSome →
      u ∈ (setPhase dir s ok bad evs d).2.1 := by
  induction d with
  | nil => intro s ok bad evs u a sm hm; simp at hm
  | cons q rest ih =>
      intro s ok bad evs u a sm hm hres
      obtain ⟨u2, a2, sm2⟩ := q
      rw [setPhase_cons]
      rcases List.mem_cons.1 hm with heq | hm2
      · have hu : u = u2 := congrArg (fun t => t.1) heq
        subst hu
        obtain ⟨p, hp⟩ := Option.isSome_iff_exists.1 hres
        have hstep : (inviteUserToShare dir s u a2 sm2).2 = true := by
          unfold inviteUserToShare
          rw [hp]
        rw [hstep]
        simp only [if_true]
        exact setPhase_ok_mono dir rest _ _ _ _ u (self_mem_setAdd ok u)
      · exact ih _ _ _ _ u a sm hm2 hres

theorem updatePhase_ok_mono (dir : Directory)
    (d : List (String × Option (List AccessXML) × AccessXML × String)) :
    ∀ (s : ShareState) (ok bad : List String) (evs : List BatchEvent) (v : String),
      v ∈ ok → v ∈ (updatePhase dir s ok bad evs d).2.1 := by
  induction d with
  | nil => intro s ok bad evs v hv; simpa [updatePhase] using hv
  | cons q rest ih =>
      intro s ok bad evs v hv
      obtain ⟨u, ao, a, sm⟩ := q
      rw [updatePhase_cons]
      apply ih
      split
      · exact mem_setAdd_of_mem u hv
      · exact hv

theorem updatePhase_bad_mono (dir : Directory)
    (d : List (String × Option (List AccessXML) × AccessXML × String)) :
    ∀ (s : ShareState) (ok bad : List String) (evs : List BatchEvent) (v : String),
      v ∈ bad → v ∈ (updatePhase dir s ok bad evs d).2.2.1 := by
  induction d with
  | nil => intro s ok bad evs v hv; simpa [updatePhase] using hv
  | cons q rest ih =>
      intro s ok bad evs v hv
      obtain ⟨u, ao, a, sm⟩ := q
      rw [updatePhase_cons]
      apply ih
      split
      · exact hv
      · exact mem_setAdd_of_mem u hv

theorem updatePhase_adds_bad (dir : Directory)
    (d : List (String × Option (List AccessXML) × AccessXML × String)) :
    ∀ (s : ShareState) (ok bad : List String) (evs : List BatchEvent)
      (u : String) (ao : Option (List AccessXML)) (a : AccessXML) (sm : String),
      (u, ao, a, sm) ∈ d → validUserIDForShare dir u = none →
      u ∈ (updatePhase dir s ok bad evs d).2.2.1 := by
  induction d with
  | nil => intro s ok bad evs u ao a sm hm; simp at hm
  | cons q rest ih =>
      intro s ok bad evs u ao a sm hm hres
      obtain ⟨u2, ao2, a2, sm2⟩ := q
      rw [updatePhase_cons]
      rcases List.mem_cons.1 hm with heq | hm2
      · have hu : u = u2 := congrArg (fun t => t.1) heq
        subst hu
        have hstep : (inviteUserUpdateToShare dir s u ao2 a2 sm2).2 = false := by
          unfold inviteUserUpdateToShare
          rw [hres]
        rw [hstep]
        simp only [Bool.false_eq_true, if_false]
        exact updatePhase_bad_mono dir rest _ _ _ _ u (self_mem_setAdd bad u)
      · exact ih _ _ _ _ u ao a sm hm2 hres

theorem updatePhase_adds_ok (dir : Directory)
    (d : List (String × Option (List AccessXML) × AccessXML × String)) :
    ∀ (s : ShareState) (ok bad : List String) (evs : List BatchEvent)
      (u : String) (ao : Option (List AccessXML)) (a : AccessXML) (sm : String),
      (u, ao, a, sm) ∈ d → (validUserIDForShare dir u).isSome →
      u ∈ (updatePhase dir s ok bad evs d).2.1 := by
  induction d with
  | nil => intro s ok bad evs u ao a sm hm; simp at hm
  | cons q rest ih =>
      intro s ok bad evs u ao a sm hm hres
      obtain ⟨u2, ao2, a2, sm2⟩ := q
      rw [updatePhase_cons]
      rcases List.mem_cons.1 hm with heq | hm2
      · have hu : u = u2 := congrArg (fun t => t.1) heq
        subst hu
        obtain ⟨p, hp⟩ := Option.isSome_iff_exists.1 hres
        have hstep : (inviteUserUpdateToShare dir s u ao2 a2 sm2).2 = true := by
          unfold inviteUserUpdateToShare
          rw [hp]
        rw [hstep]
        simp only [if_true]
        exact updatePhase_ok_mono dir rest _ _ _ _ u (self_mem_setAdd ok u)
      · exact ih _ _ _ _ u ao a sm hm2 hres

theorem removePhase_good (d : List (String × Option (List AccessXML))) :
    ∀ (s : ShareState) (ok bad : List String) (evs : List BatchEvent),
      goodStore s → goodStore (removePhase s ok bad evs d).1 := by
  induction d with
  | nil => intro s ok bad evs h; simpa [removePhase] using h
  | cons q rest ih =>
      intro s ok bad evs h
      obtain ⟨u, a⟩ := q
      rw [removePhase_cons]
      exact ih _ _ _ _ (goodStore_uninviteSingleUserFromShare h)

theorem setPhase_good (dir : Directory) (d : List (String × AccessXML × String)) :
    ∀ (s : ShareState) (ok bad : List String) (evs : List BatchEvent),
      goodStore s → goodStore (setPhase dir s ok bad evs d).1 := by
  induction d with
  | nil => intro s ok bad evs h; simpa [setPhase] using h
  | cons q rest ih =>
      intro s ok bad evs h
      obtain ⟨u, a, sm⟩ := q
      rw [setPhase_cons]
      exact ih _ _ _ _ (goodStore_inviteUserToShare h)

theorem updatePhase_good (dir : Directory)
    (d : List (String × Option (List AccessXML) × AccessXML × String)) :
    ∀ (s : ShareState) (ok bad : List String) (evs : List BatchEvent),
      goodStore s → goodStore (updatePhase dir s ok bad evs d).1 := by
  induction d with
  | nil => intro s ok bad evs h; simpa [updatePhase] using h
  | cons q rest ih =>
      intro s ok bad evs h
      obtain ⟨u, ao, a, sm⟩ := q
      rw [updatePhase_cons]
      exact ih _ _ _ _ (goodStore_inviteUserUpdateToShare h)

theorem updatePhase_append (dir : Directory)
    (d1 d2 : List (String × Option (List AccessXML) × AccessXML × String)) :
    ∀ (s : ShareState) (ok bad : List String) (evs : List BatchEvent),
      updatePhase dir s ok bad evs (d1 ++ d2) =
        updatePhase dir (updatePhase dir s ok bad evs d1).1
          (updatePhase dir s ok bad evs d1).2.1
          (updatePhase dir s ok bad evs d1).2.2.1
          (updatePhase dir s ok bad evs d1).2.2.2 d2 := by
  induction d1 with
  | nil => intro s ok bad evs; simp [updatePhase]
  | cons q rest ih =>
      intro s ok bad evs
      obtain ⟨u, ao, a, sm⟩ := q
      rw [List.cons_append, updatePhase_cons, updatePhase_cons, ih]

theorem filter_filter_of_imp {α : Type} (l : List α) (p q : α → Bool)
    (h : ∀ x ∈ l, p x = true → q x = true) :
    (l.filter q).filter p = l.filter p := by
  induction l with
  | nil => rfl
  | cons a t ih =>
      have ht : ∀ x ∈ t, p x = true → q x = true :=
        fun x hx => h x (List.mem_cons_of_mem a hx)
      cases hp : p a with
      | true =>
          have hq : q a = true := h a (List.mem_cons_self a t) hp
          simp [List.filter_cons, hp, hq, ih ht]
      | false =>
          cases hq : q a with
          | true => simp [List.filter_cons, hp, hq, ih ht]
          | false => simp [List.filter_cons, hp, hq, ih ht]

theorem rowsFor_inviteSingleUserToShare_other {s : ShareState} {u p : String}
    {a : AccessXML} {sm : String} (hg : goodStore s) (hne : u ≠ p) :
    ((inviteSingleUserToShare s u a sm).store).filter (fun x => x.userid = p) =
      s.store.filter (fun x => x.userid = p) := by
  unfold inviteSingleUserToShare addOrUpdateRecord
  rw [List.filter_append]
  have h2 : List.filter (fun x => decide (x.userid = p))
      [(⟨s.uidSupply, u, inviteAccessMapFromXML a, "NEEDS-ACTION", sm⟩ : Invite)] = [] := by
    simp [hne]
  rw [h2, List.append_nil]
  apply filter_filter_of_imp
  intro x hx hpx
  simp only [decide_eq_true_eq] at hpx
  simp only [decide_eq_true_eq]
  constructor
  · rw [hpx]
    exact fun hc => hne hc.symm
  · exact Nat.ne_of_lt (hg.2.2 x hx)

theorem updatePhase_rowsFor (dir : Directory) (p : String)
    (d : List (String × Option (List AccessXML) × AccessXML × String)) :
    ∀ (s : ShareState) (ok bad : List String) (evs : List BatchEvent),
      goodStore s →
      (∀ q ∈ d, validUserIDForShare dir q.1 ≠ some p) →
      ((updatePhase dir s ok bad evs d).1).store.filter (fun x => x.userid = p) =
        s.store.filter (fun x => x.userid = p) := by
  induction d with
  | nil => intro s ok bad evs hg hal; simp [updatePhase]
  | cons q rest ih =>
      intro s ok bad evs hg hal
      obtain ⟨u, ao, a, sm⟩ := q
      rw [updatePhase_cons]
      have hal2 : ∀ q ∈ rest, validUserIDForShare dir q.1 ≠ some p :=
        fun q hq => hal q (List.mem_cons_of_mem _ hq)
      cases hres : validUserIDForShare dir u with
      | none =>
          have hstate : (inviteUserUpdateToShare dir s u ao a sm).1 = s := by
            unfold inviteUserUpdateToShare
            rw [hres]
          rw [hstate]
          exact ih _ _ _ _ hg hal2
      | some p2 =>
          have hp2 : p2 ≠ p := by
            intro hc
            exact hal (u, ao, a, sm) (List.mem_cons_self _ _) (by rw [hres, hc])
          have hstate : (inviteUserUpdateToShare dir s u ao a sm).1 =
              inviteSingleUserToShare s p2 a sm := by
            unfold inviteUserUpdateToShare inviteSingleUserUpdateToShare
            rw [hres]
          rw [hstate]
          rw [ih _ _ _ _ (goodStore_inviteSingleUserToShare hg) hal2]
          exact rowsFor_inviteSingleUserToShare_other hg hp2

theorem mem_allRecords {st : InviteStore} {x : Invite} :
    x ∈ allRecords st ↔ x ∈ st :=
  List.mem_insertionSort inviteLe

theorem validateInvitesLoop_invalid (dir : Directory) :
    ∀ (recs : List Invite) (st : InviteStore),
      (∀ inv ∈ st, validUserIDForShare dir inv.userid = none →
        inv.state ≠ "INVALID" → inv ∈ recs) →
      ∀ inv ∈ validateInvitesLoop dir recs st,
        validUserIDForShare dir inv.userid = none → inv.state = "INVALID" := by
  intro recs
  induction recs with
  | nil =>
      intro st hP inv hm hres
      by_contra hne
      have hmem := hP inv (by simpa [validateInvitesLoop] using hm) hres hne
      simp at hmem
  | cons r rest ih =>
      intro st hP inv hm hres
      by_cases hc : validUserIDForShare dir r.userid = none ∧ r.state ≠ "INVALID"
      · rw [validateInvitesLoop, if_pos hc] at hm
        refine ih _ ?_ inv hm hres
        intro y hy hyres hyst
        rcases mem_addOrUpdateRecord.1 hy with ⟨hyst0, hyne, _⟩ | hyeq
        · rcases List.mem_cons.1 (hP y hyst0 hyres hyst) with hyr | hyrest
          · exact absurd (congrArg (fun z => z.userid) hyr) hyne
          · exact hyrest
        · subst hyeq
          simp at hyst
      · rw [validateInvitesLoop, if_neg hc] at hm
        refine ih _ ?_ inv hm hres
        intro y hy hyres hyst
        rcases List.mem_cons.1 (hP y hy hyres hyst) with hyr | hyrest
        · subst hyr
          exact absurd ⟨hyres, hyst⟩ hc
        · exact hyrest

theorem validateInvites_invalid (dir : Directory) (st : InviteStore) :
    ∀ inv ∈ validateInvites dir st,
      validUserIDForShare dir inv.userid = none → inv.state = "INVALID" := by
  apply validateInvitesLoop_invalid
  intro inv hm _ _
  exact mem_allRecords.2 hm

theorem validateInvitesLoop_preserves (dir : Directory) (st0 : InviteStore)
    (hN : (st0.map (fun x => x.userid)).Nodup)
    (hU : (st0.map (fun x => x.inviteuid)).Nodup) :
    ∀ (recs : List Invite) (st : InviteStore) (inv : Invite),
      (∀ r ∈ recs, r ∈ st0) → inv ∈ st0 → inv ∈ st →
      (validUserIDForShare dir inv.userid).isSome →
      inv ∈ validateInvitesLoop dir recs st := by
  intro recs
  induction recs with
  | nil =>
      intro st inv _ _ hmem _
      simpa [validateInvitesLoop] using hmem
  | cons r rest ih =>
      intro st inv hrec hinv0 hmem hres
      have hrst0 : r ∈ st0 := hrec r (List.mem_cons_self r rest)
      have hrec2 : ∀ y ∈ rest, y ∈ st0 := fun y hy => hrec y (List.mem_cons_of_mem r hy)
      by_cases hc : validUserIDForShare dir r.userid = none ∧ r.state ≠ "INVALID"
      · rw [validateInvitesLoop, if_pos hc]
        refine ih _ inv hrec2 hinv0 ?_ hres
        have hinvr : inv ≠ r := by
          intro hc2
          rw [hc2, hc.1] at hres
          simp at hres
        apply mem_addOrUpdateRecord.2
        refine Or.inl ⟨hmem, ?_, ?_⟩
        · intro hc2
          exact hinvr (List.inj_on_of_nodup_map hN hinv0 hrst0 hc2)
        · intro hc2
          exact hinvr (List.inj_on_of_nodup_map hU hinv0 hrst0 hc2)
      · rw [validateInvitesLoop, if_neg hc]
        exact ih _ inv hrec2 hinv0 hmem hres

theorem validateInvites_preserves (dir : Directory) (st : InviteStore)
    (hN : (st.map (fun x => x.userid)).Nodup)
    (hU : (st.map (fun x => x.inviteuid)).Nodup) :
    ∀ inv ∈ st, (validUserIDForShare dir inv.userid).isSome →
      inv ∈ validateInvites dir st := by
  intro inv hmem hres
  exact validateInvitesLoop_preserves dir st hN hU (allRecords st) st inv
    (fun r hr => mem_allRecords.1 hr) hmem hmem hres

theorem validateInvitesLoop_id (dir : Directory) :
    ∀ (recs : List Invite) (st : InviteStore),
      (∀ r ∈ recs, ¬(validUserIDForShare dir r.userid = none ∧ r.state ≠ "INVALID")) →
      validateInvitesLoop dir recs st = st := by
  intro recs
  induction recs with
  | nil => intro st _; rfl
  | cons r rest ih =>
      intro st hprop
      rw [validateInvitesLoop, if_neg (hprop r (List.mem_cons_self r rest))]
      exact ih st (fun y hy => hprop y (List.mem_cons_of_mem r hy))

theorem validateInvites_idem (dir : Directory) (st : InviteStore) :
    validateInvites dir (validateInvites dir st) = validateInvites dir st := by
  apply validateInvitesLoop_id
  intro r hr
  rintro ⟨h1, h2⟩
  exact h2 (validateInvites_invalid dir st r (mem_allRecords.1 hr) h1)

theorem validateInvitesLoop_rowsFor (dir : Directory) (p : String) (row : Invite)
    (hrowid : row.userid = p) :
    ∀ (recs : List Invite) (st : InviteStore) (rowc : Invite),
      (∀ rs ∈ recs, rs.userid = p →
        rs.inviteuid = row.inviteuid ∧ rs.access = row.access ∧
          rs.summary = row.summary) →
      (∀ rs ∈ recs, rs.userid ≠ p → rs.inviteuid ≠ row.inviteuid) →
      st.filter (fun x => x.userid = p) = [rowc] →
      rowc.userid = p → rowc.inviteuid = row.inviteuid →
      rowc.access = row.access → rowc.summary = row.summary →
      ∃ row2, (validateInvitesLoop dir recs st).filter (fun x => x.userid = p) = [row2] ∧
        row2.userid = p ∧ row2.inviteuid = row.inviteuid ∧
        row2.access = row.access ∧ row2.summary = row.summary := by
  intro recs
  induction recs with
  | nil =>
      intro st rowc _ _ hrows hc1 hc2 hc3 hc4
      exact ⟨rowc, by simpa [validateInvitesLoop] using hrows, hc1, hc2, hc3, hc4⟩
  | cons rs rest ih =>
      intro st rowc hsnapP hsnapN hrows hc1 hc2 hc3 hc4
      have hsnapP2 : ∀ y ∈ rest, y.userid = p →
          y.inviteuid = row.inviteuid ∧ y.access = row.access ∧ y.summary = row.summary :=
        fun y hy => hsnapP y (List.mem_cons_of_mem rs hy)
      have hsnapN2 : ∀ y ∈ rest, y.userid ≠ p → y.inviteuid ≠ row.inviteuid :=
        fun y hy => hsnapN y (List.mem_cons_of_mem rs hy)
      by_cases hcnd : validUserIDForShare dir rs.userid = none ∧ rs.state ≠ "INVALID"
      · rw [validateInvitesLoop, if_pos hcnd]
        by_cases hup : rs.userid = p
        · obtain ⟨huid, hacc, hsum⟩ := hsnapP rs (List.mem_cons_self rs rest) hup
          refine ih _ (⟨rs.inviteuid, rs.userid, rs.access, "INVALID", rs.summary⟩ : Invite)
            hsnapP2 hsnapN2 ?_ hup huid hacc hsum
          unfold addOrUpdateRecord
          rw [List.filter_append]
          have hnil : (st.filter (fun x =>
              decide (x.userid ≠ rs.userid ∧ x.inviteuid ≠ rs.inviteuid))).filter
              (fun x => decide (x.userid = p)) = [] := by
            rw [List.filter_eq_nil_iff]
            intro a ha
            rcases List.mem_filter.1 ha with ⟨_, hq⟩
            simp only [decide_eq_true_eq] at hq
            simp only [decide_eq_true_eq]
            rw [← hup]
            exact hq.1
          rw [hnil]
          simp [hup]
        · refine ih _ rowc hsnapP2 hsnapN2 ?_ hc1 hc2 hc3 hc4
          unfold addOrUpdateRecord
          rw [List.filter_append]
          have hnil2 : List.filter (fun x => decide (x.userid = p))
              [(⟨rs.inviteuid, rs.userid, rs.access, "INVALID", rs.summary⟩ : Invite)] = [] := by
            simp [hup]
          rw [hnil2, List.append_nil]
          rw [filter_filter_of_imp st _ _ ?_]
          · exact hrows
          · intro x hx hpx
            simp only [decide_eq_true_eq] at hpx
            simp only [decide_eq_true_eq]
            have hxrow : x = rowc := by
              have : x ∈ st.filter (fun y => y.userid = p) :=
                List.mem_filter.2 ⟨hx, by simp [hpx]⟩
              rw [hrows] at this
              simpa using this
            constructor
            · rw [hpx]; exact fun hcc => hup hcc.symm
            · rw [hxrow, hc2]
              exact fun hcc =>
                (hsnapN rs (List.mem_cons_self rs rest) hup) hcc.symm
      · rw [validateInvitesLoop, if_neg hcnd]
        exact ih _ rowc hsnapP2 hsnapN2 hrows hc1 hc2 hc3 hc4

theorem validateInvites_rowsFor (dir : Directory) (p : String) (row : Invite)
    (st : InviteStore) (hU : (st.map (fun x => x.inviteuid)).Nodup)
    (hrows : st.filter (fun x => x.userid = p) = [row]) :
    ∃ row2, (validateInvites dir st).filter (fun x => x.userid = p) = [row2] ∧
      row2.userid = p ∧ row2.inviteuid = row.inviteuid ∧
      row2.access = row.access ∧ row2.summary = row.summary := by
  have hrowmem : row ∈ st ∧ row.userid = p := by
    have : row ∈ st.filter (fun x => x.userid = p) := by rw [hrows]; simp
    rcases List.mem_filter.1 this with ⟨h1, h2⟩
    simp only [decide_eq_true_eq] at h2
    exact ⟨h1, h2⟩
  apply validateInvitesLoop_rowsFor dir p row hrowmem.2 (allRecords st) st row
  · intro rs hrs hrsp
    have hrsmem : rs ∈ st := mem_allRecords.1 hrs
    have hrsrow : rs = row := by
      have : rs ∈ st.filter (fun x => x.userid = p) :=
        List.mem_filter.2 ⟨hrsmem, by simp [hrsp]⟩
      rw [hrows] at this
      simpa using this
    rw [hrsrow]
    exact ⟨rfl, rfl, rfl⟩
  · intro rs hrs hrsp hcc
    have hrsmem : rs ∈ st := mem_allRecords.1 hrs
    have : rs = row := List.inj_on_of_nodup_map hU hrsmem hrowmem.1 hcc
    rw [this] at hrsp
    exact hrsp hrowmem.2
  · exact hrows
  · exact hrowmem.2
  · rfl
  · rfl
  · rfl

theorem alistInsert_keys_nodup {β : Type} {l : List (String × β)} {k : String} {v : β}
    (h : (l.map (fun p => p.1)).Nodup) :
    ((alistInsert l k v).map (fun p => p.1)).Nodup := by
  unfold alistInsert
  split
  · next hany =>
      have hkeys : (l.map (fun p => if p.1 = k then (k, v) else p)).map (fun p => p.1) =
          l.map (fun p => p.1) := by
        rw [List.map_map]
        apply List.map_congr_left
        intro p _
        by_cases hp : p.1 = k
        · simp [hp]
        · simp [hp]
      rw [hkeys]
      exact h
  · next hany =>
      rw [List.map_append]
      refine List.Nodup.append h (List.nodup_singleton _) ?_
      intro a ha hb
      simp only [List.map_cons, List.map_nil, List.mem_singleton] at hb
      subst hb
      apply hany
      rw [List.any_eq_true]
      rcases List.mem_map.1 ha with ⟨q, hq, hqa⟩
      exact ⟨q, hq, by simp [hqa]⟩

theorem parseInviteDoc_nodup_keys :
    ∀ (doc : List InviteItem) (sd : List (String × AccessXML × String))
      (rd : List (String × Option (List AccessXML)))
      (sd0 : List (String × AccessXML × String))
      (rd0 : List (String × Option (List AccessXML))),
      parseInviteDoc doc sd rd = Except.ok (sd0, rd0) →
      (sd.map (fun p => p.1)).Nodup → (rd.map (fun p => p.1)).Nodup →
      (sd0.map (fun p => p.1)).Nodup ∧ (rd0.map (fun p => p.1)).Nodup := by
  intro doc
  induction doc with
  | nil =>
      intro sd rd sd0 rd0 h hs hr
      rw [parseInviteDoc] at h
      obtain ⟨h1, h2⟩ := Prod.mk.injEq .. ▸ Except.ok.inj h
      rw [← h1, ← h2]
      exact ⟨hs, hr⟩
  | cons item rest ih =>
      intro sd rd sd0 rd0 h hs hr
      cases item with
      | set e =>
          rw [parseInviteDoc] at h
          cases he : handleInviteSet e with
          | error err => rw [he] at h; exact absurd h (by simp)
          | ok v =>
              obtain ⟨u, a, sm⟩ := v
              rw [he] at h
              exact ih _ _ _ _ h (alistInsert_keys_nodup hs) hr
      | remove e =>
          rw [parseInviteDoc] at h
          cases he : handleInviteRemove e with
          | error err => rw [he] at h; exact absurd h (by simp)
          | ok v =>
              obtain ⟨u, a⟩ := v
              rw [he] at h
              exact ih _ _ _ _ h hs (alistInsert_keys_nodup hr)

theorem find?_key_of_nodup {β : Type} :
    ∀ {l : List (String × β)} {u : String} {v : β},
      (l.map (fun p => p.1)).Nodup → (u, v) ∈ l →
      l.find? (fun p => p.1 = u) = some (u, v) := by
  intro l
  induction l with
  | nil => intro u v _ hm; simp at hm
  | cons q t ih =>
      intro u v hN hm
      obtain ⟨k, w⟩ := q
      by_cases hk : k = u
      · have hk2 : u = k := hk.symm
        subst hk2
        have hhead : (u, v) = ((u, w) : String × β) := by
          rcases List.mem_cons.1 hm with heq | htail
          · exact heq
          · exfalso
            have : u ∈ t.map (fun p => p.1) :=
              List.mem_map.2 ⟨(u, v), htail, rfl⟩
            rw [List.map_cons] at hN
            exact (List.nodup_cons.1 hN).1 this
        rw [List.find?_cons_of_pos _ (by simp)]
        rw [← hhead]
      · rw [List.find?_cons_of_neg _ (by simp [hk])]
        rcases List.mem_cons.1 hm with heq | htail
        · exact absurd (congrArg (fun p => p.1) heq.symm) hk
        · rw [List.map_cons] at hN
          exact ih (List.nodup_cons.1 hN).2 htail

theorem filter_key_of_nodup {β : Type} :
    ∀ {l : List (String × β)} {u : String} {v : β},
      (l.map (fun p => p.1)).Nodup → (u, v) ∈ l →
      l.filter (fun p => p.1 = u) = [(u, v)] := by
  intro l
  induction l with
  | nil => intro u v _ hm; simp at hm
  | cons q t ih =>
      intro u v hN hm
      obtain ⟨k, w⟩ := q
      rw [List.map_cons] at hN
      have hN2 := List.nodup_cons.1 hN
      by_cases hk : k = u
      · have hk2 : u = k := hk.symm
        subst hk2
        have hhead : (u, v) = ((u, w) : String × β) := by
          rcases List.mem_cons.1 hm with heq | htail
          · exact heq
          · exact absurd (List.mem_map.2 ⟨(u, v), htail, rfl⟩) hN2.1
        have htnil : t.filter (fun p => decide (p.1 = u)) = [] := by
          rw [List.filter_eq_nil_iff]
          intro a ha
          simp only [decide_eq_true_eq]
          intro hc
          exact hN2.1 (List.mem_map.2 ⟨a, ha, hc⟩)
        rw [List.filter_cons_of_pos (by simp), htnil, ← hhead]
      · rw [List.filter_cons_of_neg (by simp [hk])]
        rcases List.mem_cons.1 hm with heq | htail
        · exact absurd (congrArg (fun p => p.1) heq.symm) hk
        · exact ih hN2.2 htail

theorem key_mem_find?_isSome {β : Type} {l : List (String × β)} {u : String}
    (h : u ∈ l.map (fun p => p.1)) : (l.find? (fun p => p.1 = u)).isSome := by
  rcases List.mem_map.1 h with ⟨q, hq, hqu⟩
  rw [List.find?_isSome]
  exact ⟨q, hq, by simp [hqu]⟩

theorem mem_collapseSame {sd0 : List (String × AccessXML × String)}
    {rd0 : List (String × Option (List AccessXML))} {u : String} :
    u ∈ collapseSame sd0 rd0 ↔
      u ∈ rd0.map (fun p => p.1) ∧ ∃ q ∈ sd0, q.1 = u := by
  unfold collapseSame
  rw [List.mem_filter]
  constructor
  · rintro ⟨h1, h2⟩
    rw [List.any_eq_true] at h2
    refine ⟨h1, ?_⟩
    rcases h2 with ⟨q, hq, hqu⟩
    exact ⟨q, hq, by simpa using hqu⟩
  · rintro ⟨h1, q, hq, hqu⟩
    refine ⟨h1, ?_⟩
    rw [List.any_eq_true]
    exact ⟨q, hq, by simp [hqu]⟩

theorem collapseSame_nodup {sd0 : List (String × AccessXML × String)}
    {rd0 : List (String × Option (List AccessXML))}
    (hrN : (rd0.map (fun p => p.1)).Nodup) :
    (collapseSame sd0 rd0).Nodup :=
  hrN.filter _

theorem mkUpdateDict_keys {sd0 : List (String × AccessXML × String)}
    {rd0 : List (String × Option (List AccessXML))} :
    (mkUpdateDict sd0 rd0).map (fun q => q.1) = collapseSame sd0 rd0 := by
  unfold mkUpdateDict
  have hgen : ∀ (L : List String),
      (∀ u ∈ L, u ∈ rd0.map (fun p => p.1) ∧ ∃ q ∈ sd0, q.1 = u) →
      ((L.filterMap (fun u =>
        match rd0.find? (fun p => p.1 = u), sd0.find? (fun p => p.1 = u) with
        | some pr, some ps => some (u, pr.2, ps.2.1, ps.2.2)
        | _, _ => none)).map (fun q => q.1)) = L := by
    intro L
    induction L with
    | nil => intro _; rfl
    | cons u t ihL =>
        intro hL
        obtain ⟨h1, h2⟩ := hL u (List.mem_cons_self u t)
        obtain ⟨pr, hpr⟩ := Option.isSome_iff_exists.1 (key_mem_find?_isSome h1)
        have h2b : u ∈ sd0.map (fun p => p.1) := by
          rcases h2 with ⟨q, hq, hqu⟩
          exact List.mem_map.2 ⟨q, hq, hqu⟩
        obtain ⟨ps, hps⟩ := Option.isSome_iff_exists.1 (key_mem_find?_isSome h2b)
        rw [List.filterMap_cons]
        rw [hpr, hps]
        simp only [List.map_cons]
        rw [ihL (fun y hy => hL y (List.mem_cons_of_mem u hy))]
  apply hgen
  intro u hu
  exact mem_collapseSame.1 hu

theorem mem_mkUpdateDict {sd0 : List (String × AccessXML × String)}
    {rd0 : List (String × Option (List AccessXML))} {u : String}
    {a0 : AccessXML} {sm0 : String} {ra : Option (List AccessXML)}
    (hsN : (sd0.map (fun p => p.1)).Nodup) (hrN : (rd0.map (fun p => p.1)).Nodup)
    (hset : (u, a0, sm0) ∈ sd0) (hrem : (u, ra) ∈ rd0) :
    u ∈ collapseSame sd0 rd0 ∧ (u, ra, a0, sm0) ∈ mkUpdateDict sd0 rd0 := by
  have hsame : u ∈ collapseSame sd0 rd0 :=
    mem_collapseSame.2 ⟨List.mem_map.2 ⟨(u, ra), hrem, rfl⟩, (u, a0, sm0), hset, rfl⟩
  refine ⟨hsame, ?_⟩
  unfold mkUpdateDict
  rw [List.mem_filterMap]
  refine ⟨u, hsame, ?_⟩
  rw [find?_key_of_nodup hrN hrem, find?_key_of_nodup hsN hset]

theorem processInviteDoc_ok_of_parse {dir : Directory} {s0 : ShareState}
    {doc : List InviteItem} {sd0 : List (String × AccessXML × String)}
    {rd0 : List (String × Option (List AccessXML))}
    (hp : parseInviteDoc doc [] [] = Except.ok (sd0, rd0)) :
    processInviteDoc dir s0 doc = Except.ok (reconcileParsed dir s0 sd0 rd0) := by
  unfold processInviteDoc
  rw [hp]
  rfl

theorem processInviteDoc_error_of_parse {dir : Directory} {s0 : ShareState}
    {doc : List InviteItem} {err : SharingError}
    (hp : parseInviteDoc doc [] [] = Except.error err) :
    processInviteDoc dir s0 doc = Except.error err := by
  unfold processInviteDoc
  rw [hp]
  rfl

theorem processInviteDoc_cases (dir : Directory) (s0 : ShareState)
    (doc : List InviteItem) (r : BatchOutcome)
    (h : processInviteDoc dir s0 doc = Except.ok r) :
    ∃ sd0 rd0, parseInviteDoc doc [] [] = Except.ok (sd0, rd0) ∧
      r = reconcileParsed dir s0 sd0 rd0 := by
  cases hp : parseInviteDoc doc [] [] with
  | error err =>
      rw [processInviteDoc_error_of_parse hp] at h
      exact absurd h (by simp)
  | ok pair =>
      obtain ⟨sd0, rd0⟩ := pair
      rw [processInviteDoc_ok_of_parse hp] at h
      exact ⟨sd0, rd0, rfl, (Except.ok.inj h).symm⟩

theorem reconcileParsed_okusers (dir : Directory) (s0 : ShareState)
    (sd0 : List (String × AccessXML × String))
    (rd0 : List (String × Option (List AccessXML))) :
    (reconcileParsed dir s0 sd0 rd0).okusers = (runPhases dir s0 sd0 rd0).2.1 := rfl

theorem reconcileParsed_badusers (dir : Directory) (s0 : ShareState)
    (sd0 : List (String × AccessXML × String))
    (rd0 : List (String × Option (List AccessXML))) :
    (reconcileParsed dir s0 sd0 rd0).badusers = (runPhases dir s0 sd0 rd0).2.2.1 := rfl

theorem reconcileParsed_events (dir : Directory) (s0 : ShareState)
    (sd0 : List (String × AccessXML × String))
    (rd0 : List (String × Option (List AccessXML))) :
    (reconcileParsed dir s0 sd0 rd0).events =
      (runPhases dir s0 sd0 rd0).2.2.2 ++ [BatchEvent.sweep] := rfl

theorem reconcileParsed_store (dir : Directory) (s0 : ShareState)
    (sd0 : List (String × AccessXML × String))
    (rd0 : List (String × Option (List AccessXML))) :
    (reconcileParsed dir s0 sd0 rd0).state.store =
      validateInvites dir (runPhases dir s0 sd0 rd0).1.store := rfl

theorem reconcileParsed_response (dir : Directory) (s0 : ShareState)
    (sd0 : List (String × AccessXML × String))
    (rd0 : List (String × Option (List AccessXML))) :
    (reconcileParsed dir s0 sd0 rd0).response =
      (if (runPhases dir s0 sd0 rd0).2.2.1 ≠ [] then
        BatchResponse.multiStatus
          (((sortStrings (runPhases dir s0 sd0 rd0).2.1).map (fun u => (u, 200))) ++
            ((sortStrings (runPhases dir s0 sd0 rd0).2.2.1).map (fun u => (u, 403))))
      else BatchResponse.okResp) := rfl

theorem runPhases_eq (dir : Directory) (s0 : ShareState)
    (sd0 : List (String × AccessXML × String))
    (rd0 : List (String × Option (List AccessXML))) :
    runPhases dir s0 sd0 rd0 =
      updatePhase dir
        (setPhase dir
          (removePhase s0 [] [] []
            (rd0.filter (fun p => p.1 ∉ collapseSame sd0 rd0))).1
          (removePhase s0 [] [] []
            (rd0.filter (fun p => p.1 ∉ collapseSame sd0 rd0))).2.1
          (removePhase s0 [] [] []
            (rd0.filter (fun p => p.1 ∉ collapseSame sd0 rd0))).2.2.1
          (removePhase s0 [] [] []
            (rd0.filter (fun p => p.1 ∉ collapseSame sd0 rd0))).2.2.2
          (sd0.filter (fun p => p.1 ∉ collapseSame sd0 rd0))).1
        (setPhase dir
          (removePhase s0 [] [] []
            (rd0.filter (fun p => p.1 ∉ collapseSame sd0 rd0))).1
          (removePhase s0 [] [] []
            (rd0.filter (fun p => p.1 ∉ collapseSame sd0 rd0))).2.1
          (removePhase s0 [] [] []
            (rd0.filter (fun p => p.1 ∉ collapseSame sd0 rd0))).2.2.1
          (removePhase s0 [] [] []
            (rd0.filter (fun p => p.1 ∉ collapseSame sd0 rd0))).2.2.2
          (sd0.filter (fun p => p.1 ∉ collapseSame sd0 rd0))).2.1
        (setPhase dir
          (removePhase s0 [] [] []
            (rd0.filter (fun p => p.1 ∉ collapseSame sd0 rd0))).1
          (removePhase s0 [] [] []
            (rd0.filter (fun p => p.1 ∉ collapseSame sd0 rd0))).2.1
          (removePhase s0 [] [] []
            (rd0.filter (fun p => p.1 ∉ collapseSame sd0 rd0))).2.2.1
          (removePhase s0 [] [] []
            (rd0.filter (fun p => p.1 ∉ collapseSame sd0 rd0))).2.2.2
          (sd0.filter (fun p => p.1 ∉ collapseSame sd0 rd0))).2.2.1
        (setPhase dir
          (removePhase s0 [] [] []
            (rd0.filter (fun p => p.1 ∉ collapseSame sd0 rd0))).1
          (removePhase s0 [] [] []
            (rd0.filter (fun p => p.1 ∉ collapseSame sd0 rd0))).2.1
          (removePhase s0 [] [] []
            (rd0.filter (fun p => p.1 ∉ collapseSame sd0 rd0))).2.2.1
          (removePhase s0 [] [] []
            (rd0.filter (fun p => p.1 ∉ collapseSame sd0 rd0))).2.2.2
          (sd0.filter (fun p => p.1 ∉ collapseSame sd0 rd0))).2.2.2
        (mkUpdateDict sd0 rd0) := rfl

/-- A store with two distinct users, for instantiating store theorems. -/
def c5store : InviteStore :=
  [⟨1, "/principals/users/alice", "read-only", "ACCEPTED", "a"⟩,
   ⟨2, "/principals/users/bob", "read-write", "NEEDS-ACTION", "b"⟩]

/-- A replacement row for alice with a different inviteuid. -/
def c5row : Invite :=
  ⟨9, "/principals/users/alice", "read-write", "NEEDS-ACTION", "s"⟩

/-- C5: `addOrUpdateRecord` is an upsert keyed by userID: after it runs, the
rows for the record's userID are exactly the new record (every field, the
inviteUID included, overwritten, and any row with a different inviteUID for
that userID gone), `recordForUserID` returns the new record, and userID
uniqueness is preserved by `addOrUpdateRecord`, `removeRecordForUserID` and
`removeRecordForInviteUID`. -/
theorem invite_store_userid_unique (st : InviteStore) (r : Invite) (u : String)
    (iu : Nat) (h : (st.map (fun x => x.userid)).Nodup) :
    ((addOrUpdateRecord st r).map (fun x => x.userid)).Nodup ∧
    (addOrUpdateRecord st r).filter (fun x => x.userid = r.userid) = [r] ∧
    recordForUserID (addOrUpdateRecord st r) r.userid = some r ∧
    ((removeRecordForUserID st u).map (fun x => x.userid)).Nodup ∧
    ((removeRecordForInviteUID st iu).map (fun x => x.userid)).Nodup :=
  ⟨nodup_userid_addOrUpdateRecord h,
   rowsFor_addOrUpdateRecord st r,
   recordForUserID_addOrUpdateRecord st r,
   h.sublist (List.Sublist.map _ (List.filter_sublist _)),
   h.sublist (List.Sublist.map _ (List.filter_sublist _))⟩

/-- Witness for C5 at a concrete store: replacing alice's row (old inviteuid 1)
by a row with inviteuid 9 leaves exactly the new row for alice. -/
theorem invite_store_userid_unique_witness :
    (addOrUpdateRecord c5store c5row).filter (fun x => x.userid = c5row.userid) =
      [c5row] :=
  (invite_store_userid_unique c5store c5row "x" 3 (by decide)).2.1

/-- C6 (the ACL construction of `principal.py` is modelled from the spec, as
only its tests are available): under the default ACL, an Authenticated principal is
allowed Read and denied Write, and the Unauthenticated and All pseudo
principals are denied both, exactly as `_authReadOnlyPrivileges` expects; any
specific authenticated principal likewise gets Read only. -/
theorem defaultACL_read_only_for_authenticated :
    aclCheck defaultACL Requester.authPseudo Privilege.read = Decision.allowed ∧
    aclCheck defaultACL Requester.authPseudo Privilege.write = Decision.denied ∧
    aclCheck defaultACL Requester.unauthPseudo Privilege.read = Decision.denied ∧
    aclCheck defaultACL Requester.unauthPseudo Privilege.write = Decision.denied ∧
    aclCheck defaultACL Requester.allPseudo Privilege.read = Decision.denied ∧
    aclCheck defaultACL Requester.allPseudo Privilege.write = Decision.denied ∧
    (∀ url, aclCheck defaultACL (Requester.principal url) Privilege.read = Decision.allowed ∧
      aclCheck defaultACL (Requester.principal url) Privilege.write = Decision.denied) :=
  ⟨rfl, rfl, rfl, rfl, rfl, rfl, fun _ => ⟨rfl, rfl⟩⟩

/-- C7 counterexample: `test_hierarchy` pins the type bucket's
`principalCollectionURL()` to the bucket's own `typeURL`, not the provisioning
root's URL: for the root `"/XMLDirectoryService/"` and the bucket `"user"` the
result is `"/XMLDirectoryService/user/"`, which differs from the root URL. -/
theorem typeBucket_principalCollectionURL_is_own_not_root :
    principalCollectionURL "/XMLDirectoryService/" (PrincipalNode.typeBucket "user") =
      "/XMLDirectoryService/user/" ∧
    principalCollectionURL "/XMLDirectoryService/" (PrincipalNode.typeBucket "user") ≠
      "/XMLDirectoryService/" :=
  ⟨rfl, by decide⟩

/-- C7 (amended): the provisioning root's `principalCollectionURL()` is the
root URL; every type bucket's `principalCollectionURL()` is the bucket's own
`typeURL` (never equal to the root URL); it is `principalCollections()` that
reports exactly the provisioning root for the root and for every bucket. -/
theorem principalCollectionURL_spec (rootURL recordType : String) :
    principalCollectionURL rootURL PrincipalNode.root = rootURL ∧
    principalCollectionURL rootURL (PrincipalNode.typeBucket recordType) =
      typeBucketURL rootURL recordType ∧
    principalCollectionURL rootURL (PrincipalNode.typeBucket recordType) ≠ rootURL ∧
    principalCollectionsURLs rootURL (PrincipalNode.typeBucket recordType) = [rootURL] ∧
    principalCollectionsURLs rootURL PrincipalNode.root = [rootURL] := by
  refine ⟨rfl, rfl, ?_, rfl, rfl⟩
  intro hcontra
  have hc2 : rootURL ++ recordType ++ "/" = rootURL := hcontra
  have h1 := congrArg String.length hc2
  rw [String.length_append, String.length_append] at h1
  have h2 : ("/" : String).length = 1 := by decide
  rw [h2] at h1
  omega

/-- C10: a set (or update, which delegates to set) whose user id resolves
succeeds, stores a row in state NEEDS-ACTION with the given access and summary
under a freshly drawn inviteUID, whatever the previous row's state was, and the
fresh inviteUID differs from the previous row's. -/
theorem set_and_update_reset_state (dir : Directory) (s : ShareState)
    (u p : String) (a : AccessXML) (aold : Option (List AccessXML)) (sm : String)
    (hres : validUserIDForShare dir u = some p) (hg : goodStore s) :
    (inviteUserToShare dir s u a sm).2 = true ∧
    recordForUserID (inviteUserToShare dir s u a sm).1.store p =
      some ⟨s.uidSupply, p, inviteAccessMapFromXML a, "NEEDS-ACTION", sm⟩ ∧
    (∀ r0, recordForUserID s.store p = some r0 → r0.inviteuid ≠ s.uidSupply) ∧
    inviteUserUpdateToShare dir s u aold a sm = inviteUserToShare dir s u a sm := by
  have h1 : inviteUserToShare dir s u a sm = (inviteSingleUserToShare s p a sm, true) := by
    unfold inviteUserToShare
    rw [hres]
  refine ⟨by rw [h1], ?_, ?_, ?_⟩
  · rw [h1]
    exact recordForUserID_addOrUpdateRecord s.store
      ⟨s.uidSupply, p, inviteAccessMapFromXML a, "NEEDS-ACTION", sm⟩
  · intro r0 h0
    have hmem : r0 ∈ s.store := List.mem_of_find?_eq_some h0
    exact Nat.ne_of_lt (hg.2.2 r0 hmem)
  · rw [h1]
    unfold inviteUserUpdateToShare
    rw [hres]
    rfl

/-- Witness for C10: re-setting alice, whose stored row is ACCEPTED with
inviteuid 7, stores a NEEDS-ACTION row under the fresh inviteuid 100. -/
theorem set_and_update_reset_state_witness :
    recordForUserID (inviteUserToShare exampleDir exampleShare "alice"
        AccessXML.readWriteAccess "s").1.store "/principals/users/alice" =
      some ⟨100, "/principals/users/alice", "read-write", "NEEDS-ACTION", "s"⟩ :=
  (set_and_update_reset_state exampleDir exampleShare "alice"
    "/principals/users/alice" AccessXML.readWriteAccess none "s"
    (by decide) (by decide)).2.1

theorem handleInviteSet_error_of_missing (e : InviteSetElem)
    (hmiss : e.userid = none ∨ e.access = none ∨ e.summary = none) :
    ∃ err, handleInviteSet e = Except.error err := by
  obtain ⟨u, a, sm⟩ := e
  cases u <;> cases a <;> cases sm <;> simp_all [handleInviteSet]

theorem parseInviteDoc_error_of_missing :
    ∀ (doc : List InviteItem) (sd : List (String × AccessXML × String))
      (rd : List (String × Option (List AccessXML))) (e : InviteSetElem),
      InviteItem.set e ∈ doc →
      (e.userid = none ∨ e.access = none ∨ e.summary = none) →
      ∃ err, parseInviteDoc doc sd rd = Except.error err := by
  intro doc
  induction doc with
  | nil =>
      intro sd rd e hmem
      simp at hmem
  | cons item rest ih =>
      intro sd rd e hmem hmiss
      cases item with
      | set e2 =>
          cases hh : handleInviteSet e2 with
          | error err =>
              refine ⟨err, ?_⟩
              rw [parseInviteDoc, hh]
          | ok v =>
              obtain ⟨u2, a2, sm2⟩ := v
              rcases List.mem_cons.1 hmem with heq | hmem2
              · have he : e = e2 := InviteItem.set.inj heq
                subst he
                obtain ⟨err, herr⟩ := handleInviteSet_error_of_missing e hmiss
                rw [herr] at hh
                exact absurd hh (by simp)
              · obtain ⟨err, herr⟩ := ih (alistInsert sd u2 (a2, sm2)) rd e hmem2 hmiss
                refine ⟨err, ?_⟩
                rw [parseInviteDoc, hh]
                exact herr
      | remove e2 =>
          cases hh : handleInviteRemove e2 with
          | error err =>
              refine ⟨err, ?_⟩
              rw [parseInviteDoc, hh]
          | ok v =>
              obtain ⟨u2, a2⟩ := v
              rcases List.mem_cons.1 hmem with heq | hmem2
              · exact absurd heq (by simp)
              · obtain ⟨err, herr⟩ := ih sd (alistInsert rd u2 a2) e hmem2 hmiss
                refine ⟨err, ?_⟩
                rw [parseInviteDoc, hh]
                exact herr

/-- C8: a set operation with a missing mandatory field (user id, access or
summary) makes the whole request fail with an error raised by the parsing
loop, before any mutation: the result is an error for every directory and
every starting share state, and is one and the same error whatever the
directory and store are, so no per-user mutation can have influenced it. -/
theorem malformed_set_aborts_before_mutation (doc : List InviteItem)
    (e : InviteSetElem) (hmem : InviteItem.set e ∈ doc)
    (hmiss : e.userid = none ∨ e.access = none ∨ e.summary = none) :
    (∀ dir s0, ∃ err, processInviteDoc dir s0 doc = Except.error err) ∧
    (∀ dir dir2 s0 s02,
      processInviteDoc dir s0 doc = processInviteDoc dir2 s02 doc) := by
  obtain ⟨err, herr⟩ := parseInviteDoc_error_of_missing doc [] [] e hmem hmiss
  constructor
  · intro dir s0
    exact ⟨err, processInviteDoc_error_of_parse herr⟩
  · intro dir dir2 s0 s02
    rw [processInviteDoc_error_of_parse herr, processInviteDoc_error_of_parse herr]

/-- Witness for C8: a set element with no access element aborts a batch that
also contains a removal, whatever the store held. -/
theorem malformed_set_aborts_before_mutation_witness :
    ∃ err, processInviteDoc exampleDir exampleShare
      [InviteItem.remove ⟨some "bob", []⟩,
       InviteItem.set ⟨some "alice", none, some "x"⟩] = Except.error err :=
  (malformed_set_aborts_before_mutation
    [InviteItem.remove ⟨some "bob", []⟩,
     InviteItem.set ⟨some "alice", none, some "x"⟩]
    ⟨some "alice", none, some "x"⟩ (by decide) (Or.inr (Or.inl rfl))).1
    exampleDir exampleShare

/-- A concrete unsorted store for instantiating the ordering theorem. -/
def c9store : InviteStore :=
  [⟨2, "/principals/users/bob", "read-write", "NEEDS-ACTION", "b"⟩,
   ⟨1, "/principals/users/alice", "read-only", "ACCEPTED", "a"⟩]

/-- The document of the C9 instantiation: one set for an unresolvable user. -/
def c9doc : List InviteItem :=
  [InviteItem.set ⟨some "carol", some AccessXML.readAccess, some "x"⟩]

/-- The outcome of processing `c9doc` against an empty store. -/
def c9run : BatchOutcome :=
  ⟨⟨[], 5⟩, [], ["carol"], [BatchEvent.setUser "carol", BatchEvent.sweep],
    BatchResponse.multiStatus [("carol", 403)]⟩

/-- C9: `allRecords` returns the rows sorted by userID ascending, and a batch
renders a multi-status report exactly when some user was bad; the report lists
the ok users then the bad users, each group sorted in ascending lexical
order. -/
theorem allRecords_sorted_and_report_ordered (st : InviteStore) (dir : Directory)
    (s0 : ShareState) (doc : List InviteItem) (r : BatchOutcome)
    (h : processInviteDoc dir s0 doc = Except.ok r) :
    ((allRecords st).map (fun x => x.userid)).Pairwise (fun a b => a ≤ b) ∧
    (r.badusers = [] → r.response = BatchResponse.okResp) ∧
    (r.badusers ≠ [] →
      r.response = BatchResponse.multiStatus
        ((sortStrings r.okusers).map (fun u => (u, 200)) ++
          (sortStrings r.badusers).map (fun u => (u, 403))) ∧
      (sortStrings r.okusers).Pairwise (fun a b => a ≤ b) ∧
      (sortStrings r.badusers).Pairwise (fun a b => a ≤ b)) := by
  obtain ⟨sd0, rd0, hp, hr⟩ := processInviteDoc_cases dir s0 doc r h
  subst hr
  refine ⟨?_, ?_, ?_⟩
  · rw [List.pairwise_map]
    exact (List.sorted_insertionSort inviteLe st).imp
      (fun h => (strLe_iff_le _ _).1 h)
  · intro hbad
    rw [reconcileParsed_badusers] at hbad
    rw [reconcileParsed_response, if_neg (by simp [hbad])]
  · intro hbad
    rw [reconcileParsed_badusers] at hbad
    refine ⟨?_, ?_, ?_⟩
    · rw [reconcileParsed_response, if_pos hbad, reconcileParsed_okusers,
        reconcileParsed_badusers]
    · exact (List.sorted_insertionSort strLeB _).imp
        (fun h => (strLe_iff_le _ _).1 h)
    · exact (List.sorted_insertionSort strLeB _).imp
        (fun h => (strLe_iff_le _ _).1 h)

/-- Witness for C9: the concrete run `c9run` has a bad user, renders as a
multi-status report in the sorted ok-then-bad shape, and both groups are
sorted. -/
theorem allRecords_sorted_and_report_ordered_witness :
    c9run.response = BatchResponse.multiStatus
      ((sortStrings c9run.okusers).map (fun u => (u, 200)) ++
        (sortStrings c9run.badusers).map (fun u => (u, 403))) ∧
    (sortStrings c9run.okusers).Pairwise (fun a b => a ≤ b) ∧
    (sortStrings c9run.badusers).Pairwise (fun a b => a ≤ b) :=
  (allRecords_sorted_and_report_ordered c9store exampleDir ⟨[], 5⟩ c9doc c9run
    (by decide)).2.2 (by decide)

/-- C3: after the sweep every stored invite whose userid no longer resolves
has state INVALID; every invite that does resolve is still present unchanged
(under the schema's two uniqueness constraints); the sweep is idempotent; and
every successful batch leaves a store on which the sweep has just run, hence
one satisfying the INVALID property and fixed by a second sweep. -/
theorem validation_sweep_correct (dir : Directory) (st : InviteStore)
    (hN : (st.map (fun x => x.userid)).Nodup)
    (hU : (st.map (fun x => x.inviteuid)).Nodup) :
    (∀ inv ∈ validateInvites dir st,
        validUserIDForShare dir inv.userid = none → inv.state = "INVALID") ∧
    (∀ inv ∈ st, (validUserIDForShare dir inv.userid).isSome →
        inv ∈ validateInvites dir st) ∧
    validateInvites dir (validateInvites dir st) = validateInvites dir st ∧
    (∀ s0 doc r, processInviteDoc dir s0 doc = Except.ok r →
        (∀ inv ∈ r.state.store,
            validUserIDForShare dir inv.userid = none → inv.state = "INVALID") ∧
        validateInvites dir r.state.store = r.state.store) := by
  refine ⟨validateInvites_invalid dir st, validateInvites_preserves dir st hN hU,
    validateInvites_idem dir st, ?_⟩
  intro s0 doc r h
  obtain ⟨sd0, rd0, hp, hr⟩ := processInviteDoc_cases dir s0 doc r h
  subst hr
  rw [reconcileParsed_store]
  exact ⟨validateInvites_invalid dir _, validateInvites_idem dir _⟩

/-- Witness for C3 at a concrete two-user store: the sweep is idempotent. -/
theorem validation_sweep_correct_witness :
    validateInvites exampleDir (validateInvites exampleDir c5store) =
      validateInvites exampleDir c5store :=
  (validation_sweep_correct exampleDir c5store (by decide) (by decide)).2.2.1

theorem count_sweep_append_one (E : List BatchEvent)
    (hE : ∀ ev ∈ E, ev ≠ BatchEvent.sweep) :
    (E ++ [BatchEvent.sweep]).count BatchEvent.sweep = 1 := by
  rw [List.count_append, List.count_eq_zero.2 (fun hmem => hE _ hmem rfl)]
  simp

/-- C4: every successful batch applies its mutations as all remaining
removals, then all remaining sets, then all collapsed updates, and records the
validation sweep exactly once, after every mutation event, regardless of which
per-user operations succeeded. -/
theorem batch_phase_order (dir : Directory) (s0 : ShareState)
    (doc : List InviteItem) (r : BatchOutcome)
    (h : processInviteDoc dir s0 doc = Except.ok r) :
    ∃ rs ss us : List String,
      r.events = rs.map BatchEvent.removeUser ++ ss.map BatchEvent.setUser ++
        us.map BatchEvent.updateUser ++ [BatchEvent.sweep] ∧
      r.events.count BatchEvent.sweep = 1 := by
  obtain ⟨sd0, rd0, hp, hr⟩ := processInviteDoc_cases dir s0 doc r h
  subst hr
  rw [reconcileParsed_events]
  have he : (runPhases dir s0 sd0 rd0).2.2.2 =
      ((rd0.filter (fun p => p.1 ∉ collapseSame sd0 rd0)).map (fun p => p.1)).map
          BatchEvent.removeUser ++
        ((sd0.filter (fun p => p.1 ∉ collapseSame sd0 rd0)).map (fun p => p.1)).map
          BatchEvent.setUser ++
        ((mkUpdateDict sd0 rd0).map (fun p => p.1)).map BatchEvent.updateUser := by
    rw [runPhases_eq, updatePhase_events, setPhase_events, removePhase_events]
    simp [List.map_map, List.append_assoc, Function.comp_def]
  refine ⟨(rd0.filter (fun p => p.1 ∉ collapseSame sd0 rd0)).map (fun p => p.1),
    (sd0.filter (fun p => p.1 ∉ collapseSame sd0 rd0)).map (fun p => p.1),
    ((mkUpdateDict sd0 rd0).map (fun p => p.1)), ?_, ?_⟩
  · rw [he, List.append_assoc, List.append_assoc]
  · rw [he]
    apply count_sweep_append_one
    intro ev hev
    rcases List.mem_append.1 hev with hev1 | hev2
    · rcases List.mem_append.1 hev1 with hev3 | hev4
      · rcases List.mem_map.1 hev3 with ⟨x, _, hx⟩
        rw [← hx]
        simp
      · rcases List.mem_map.1 hev4 with ⟨x, _, hx⟩
        rw [← hx]
        simp
    · rcases List.mem_map.1 hev2 with ⟨x, _, hx⟩
      rw [← hx]
      simp

/-- The document of the C4 instantiation: two sets, two removes, one collapsed
userid. -/
def c4doc : List InviteItem :=
  [InviteItem.set ⟨some "alice", some AccessXML.readAccess, some "la"⟩,
   InviteItem.set ⟨some "carol", some AccessXML.readWriteAccess, some "lc"⟩,
   InviteItem.remove ⟨some "bob", []⟩,
   InviteItem.remove ⟨some "carol", []⟩]

/-- The outcome of processing `c4doc` against an empty store. -/
def c4run : BatchOutcome :=
  ⟨⟨[⟨0, "/principals/users/alice", "read-only", "NEEDS-ACTION", "la"⟩], 1⟩,
    ["bob", "alice"], ["carol"],
    [BatchEvent.removeUser "bob", BatchEvent.setUser "alice",
      BatchEvent.updateUser "carol", BatchEvent.sweep],
    BatchResponse.multiStatus [("alice", 200), ("bob", 200), ("carol", 403)]⟩

/-- Witness for C4 at a concrete batch exercising all three phases. -/
theorem batch_phase_order_witness :
    ∃ rs ss us : List String,
      c4run.events = rs.map BatchEvent.removeUser ++ ss.map BatchEvent.setUser ++
        us.map BatchEvent.updateUser ++ [BatchEvent.sweep] ∧
      c4run.events.count BatchEvent.sweep = 1 :=
  batch_phase_order exampleDir ⟨[], 0⟩ c4doc c4run (by decide)

/-- C2 counterexample: a batch whose remove operation names a userid that is
also in the set operations is collapsed into an update, which validates; with
the unresolvable id "dave" the remove's user ends in badUsers, not okUsers as
the claim states for every remove operation. -/
theorem remove_not_always_ok :
    processInviteDoc exampleDir ⟨[], 0⟩
      [InviteItem.set ⟨some "dave", some AccessXML.readWriteAccess, some "x"⟩,
       InviteItem.remove ⟨some "dave", []⟩] =
    Except.ok ⟨⟨[], 0⟩, [], ["dave"],
      [BatchEvent.updateUser "dave", BatchEvent.sweep],
      BatchResponse.multiStatus [("dave", 403)]⟩ := by decide

/-- C2 (amended): a set operation validates its user id - an unresolvable id
makes `inviteUserToShare` return false with the state untouched (storage never
reached) and, when the userid is not also in the remove operations, the user
is counted in badUsers; a remove operation never validates -
`uninviteUserToShare` takes no directory at all, always succeeds, and, when
the userid is not also in the set operations, the user is counted in okUsers
whether or not the id resolves or a row exists.  A userid in both maps is
instead processed as a single update, which does validate. -/
theorem set_validates_remove_does_not (dir : Directory) (s0 : ShareState)
    (doc : List InviteItem)
    (sd0 : List (String × AccessXML × String))
    (rd0 : List (String × Option (List AccessXML)))
    (r : BatchOutcome) (u : String)
    (hp : parseInviteDoc doc [] [] = Except.ok (sd0, rd0))
    (hrun : processInviteDoc dir s0 doc = Except.ok r) :
    (∀ s a sm, validUserIDForShare dir u = none →
        inviteUserToShare dir s u a sm = (s, false)) ∧
    (∀ s : ShareState, uninviteUserToShare s u =
        (⟨removeRecordForUserID s.store u, s.uidSupply⟩, true)) ∧
    (∀ a0 sm0, (u, a0, sm0) ∈ sd0 → (∀ q ∈ rd0, q.1 ≠ u) →
        validUserIDForShare dir u = none → u ∈ r.badusers) ∧
    (∀ ra, (u, ra) ∈ rd0 → (∀ q ∈ sd0, q.1 ≠ u) → u ∈ r.okusers) := by
  have hr : r = reconcileParsed dir s0 sd0 rd0 := by
    rw [processInviteDoc_ok_of_parse hp] at hrun
    exact (Except.ok.inj hrun).symm
  subst hr
  refine ⟨?_, ?_, ?_, ?_⟩
  · intro s a sm hres
    unfold inviteUserToShare
    rw [hres]
  · intro s
    rfl
  · intro a0 sm0 hset hnos hres
    have hnotsame : u ∉ collapseSame sd0 rd0 := by
      intro hc
      rcases (mem_collapseSame.1 hc).1 |> List.mem_map.1 with ⟨q, hq, hqu⟩
      exact hnos q hq hqu
    have hmem : (u, a0, sm0) ∈ sd0.filter
        (fun p => p.1 ∉ collapseSame sd0 rd0) :=
      List.mem_filter.2 ⟨hset, by simpa using hnotsame⟩
    rw [reconcileParsed_badusers, runPhases_eq]
    apply updatePhase_bad_mono
    exact setPhase_adds_bad dir _ _ _ _ _ u a0 sm0 hmem hres
  · intro ra hrem hnor
    have hnotsame : u ∉ collapseSame sd0 rd0 := by
      intro hc
      rcases (mem_collapseSame.1 hc).2 with ⟨q, hq, hqu⟩
      exact hnor q hq hqu
    have hmem : (u, ra) ∈ rd0.filter
        (fun p => p.1 ∉ collapseSame sd0 rd0) :=
      List.mem_filter.2 ⟨hrem, by simpa using hnotsame⟩
    rw [reconcileParsed_okusers, runPhases_eq]
    apply updatePhase_ok_mono
    apply setPhase_ok_mono
    exact removePhase_ok_adds _ _ _ _ _ u ra hmem

/-- Witness for C2 at a concrete batch: the remove of the absent, unresolvable
id "ghost" (not among the set operations) is counted ok. -/
theorem set_validates_remove_does_not_witness :
    "ghost" ∈ (reconcileParsed exampleDir exampleShare
      [("alice", AccessXML.readAccess, "hi")] [("ghost", none)]).okusers :=
  (set_validates_remove_does_not exampleDir exampleShare
    [InviteItem.set ⟨some "alice", some AccessXML.readAccess, some "hi"⟩,
     InviteItem.remove ⟨some "ghost", []⟩]
    [("alice", AccessXML.readAccess, "hi")] [("ghost", none)]
    (reconcileParsed exampleDir exampleShare
      [("alice", AccessXML.readAccess, "hi")] [("ghost", none)])
    "ghost" (by decide) (by decide)).2.2.2 none (by decide) (by decide)

theorem runPhases_events (dir : Directory) (s0 : ShareState)
    (sd0 : List (String × AccessXML × String))
    (rd0 : List (String × Option (List AccessXML))) :
    (runPhases dir s0 sd0 rd0).2.2.2 =
      (rd0.filter (fun p => p.1 ∉ collapseSame sd0 rd0)).map
          (fun p => BatchEvent.removeUser p.1) ++
        (sd0.filter (fun p => p.1 ∉ collapseSame sd0 rd0)).map
          (fun p => BatchEvent.setUser p.1) ++
        (mkUpdateDict sd0 rd0).map (fun p => BatchEvent.updateUser p.1) := by
  rw [runPhases_eq, updatePhase_events, setPhase_events, removePhase_events]
  simp [List.append_assoc]

theorem filter_eq_nil_of_ne (E : List BatchEvent) (target : BatchEvent)
    (h : ∀ ev ∈ E, ev ≠ target) :
    E.filter (fun ev => ev = target) = [] := by
  rw [List.filter_eq_nil_iff]
  intro ev hev
  simp only [decide_eq_true_eq]
  exact h ev hev

theorem updatePhase_rowsFor_through (dir : Directory) (p : String)
    (pre post : List (String × Option (List AccessXML) × AccessXML × String))
    (u : String) (ra : Option (List AccessXML)) (a0 : AccessXML) (sm0 : String)
    (hres : validUserIDForShare dir u = some p)
    (hpost : ∀ q ∈ post, validUserIDForShare dir q.1 ≠ some p) :
    ∀ (s : ShareState) (ok bad : List String) (evs : List BatchEvent),
      goodStore s →
      ((updatePhase dir s ok bad evs (pre ++ (u, ra, a0, sm0) :: post)).1).store.filter
          (fun x => x.userid = p) =
        [⟨(updatePhase dir s ok bad evs pre).1.uidSupply, p,
          inviteAccessMapFromXML a0, "NEEDS-ACTION", sm0⟩] ∧
      goodStore (updatePhase dir s ok bad evs (pre ++ (u, ra, a0, sm0) :: post)).1 := by
  intro s ok bad evs hg
  rw [updatePhase_append, updatePhase_cons]
  have hMg : goodStore (updatePhase dir s ok bad evs pre).1 :=
    updatePhase_good dir pre s ok bad evs hg
  have hstep : (inviteUserUpdateToShare dir (updatePhase dir s ok bad evs pre).1
      u ra a0 sm0).1 =
      inviteSingleUserToShare (updatePhase dir s ok bad evs pre).1 p a0 sm0 := by
    unfold inviteUserUpdateToShare
    rw [hres]
    rfl
  rw [hstep]
  have hgU : goodStore (inviteSingleUserToShare (updatePhase dir s ok bad evs pre).1
      p a0 sm0) := goodStore_inviteSingleUserToShare hMg
  constructor
  · rw [updatePhase_rowsFor dir p post _ _ _ _ hgU hpost]
    exact rowsFor_addOrUpdateRecord (updatePhase dir s ok bad evs pre).1.store
      ⟨(updatePhase dir s ok bad evs pre).1.uidSupply, p,
        inviteAccessMapFromXML a0, "NEEDS-ACTION", sm0⟩
  · exact updatePhase_good dir post _ _ _ _ hgU

/-- C1 counterexample: a userid in both the set and the remove operations is
collapsed into an update, but when the id does not resolve (here "erin") the
user is counted in badUsers, not okUsers, and no invite row is created, so the
claim's unconditional "counted in okUsers, one row with the new access"
fails. -/
theorem collapse_not_always_ok :
    processInviteDoc exampleDir exampleShare
      [InviteItem.set ⟨some "erin", some AccessXML.readAccess, some "s2"⟩,
       InviteItem.remove ⟨some "erin", []⟩] =
    Except.ok ⟨⟨[⟨7, "/principals/users/alice", "read-only", "ACCEPTED", "old"⟩], 100⟩,
      [], ["erin"], [BatchEvent.updateUser "erin", BatchEvent.sweep],
      BatchResponse.multiStatus [("erin", 403)]⟩ := by decide

/-- C1 (amended): a userid present in both the set and the remove operations
is deleted from both maps and processed exactly once, as an update (its only
recorded event is a single update event; no remove or set event names it).
If the id resolves to principal p then the user is counted in okUsers and -
provided the store satisfies the schema invariants and no other operation in
the remove map resolves to the same principal - exactly one invite row for p
exists afterwards, carrying the new access and the new summary (the inviteUID
may change); if the id does not resolve the user is counted in badUsers (see
the counterexample). -/
theorem collapse_remove_set_into_update (dir : Directory) (s0 : ShareState)
    (doc : List InviteItem)
    (sd0 : List (String × AccessXML × String))
    (rd0 : List (String × Option (List AccessXML)))
    (r : BatchOutcome) (u p : String) (a0 : AccessXML) (sm0 : String)
    (ra : Option (List AccessXML))
    (hp : parseInviteDoc doc [] [] = Except.ok (sd0, rd0))
    (hrun : processInviteDoc dir s0 doc = Except.ok r)
    (hset : (u, a0, sm0) ∈ sd0)
    (hrem : (u, ra) ∈ rd0)
    (hres : validUserIDForShare dir u = some p)
    (hgood : goodStore s0)
    (halias : ∀ q ∈ rd0, q.1 ≠ u → validUserIDForShare dir q.1 ≠ some p) :
    r.events.filter (fun ev => ev = BatchEvent.updateUser u) =
      [BatchEvent.updateUser u] ∧
    r.events.filter (fun ev => ev = BatchEvent.removeUser u) = [] ∧
    r.events.filter (fun ev => ev = BatchEvent.setUser u) = [] ∧
    u ∈ r.okusers ∧
    ∃ row, r.state.store.filter (fun x => x.userid = p) = [row] ∧
      row.userid = p ∧ row.access = inviteAccessMapFromXML a0 ∧
      row.summary = sm0 := by
  have hr : r = reconcileParsed dir s0 sd0 rd0 := by
    rw [processInviteDoc_ok_of_parse hp] at hrun
    exact (Except.ok.inj hrun).symm
  subst hr
  obtain ⟨hsN, hrN⟩ :=
    parseInviteDoc_nodup_keys doc [] [] sd0 rd0 hp (by simp) (by simp)
  obtain ⟨husame, hud⟩ := mem_mkUpdateDict hsN hrN hset hrem
  have hudnodup : ((mkUpdateDict sd0 rd0).map (fun q => q.1)).Nodup := by
    rw [mkUpdateDict_keys]
    exact collapseSame_nodup hrN
  have hrdne : ∀ q ∈ rd0.filter (fun p2 => p2.1 ∉ collapseSame sd0 rd0),
      q.1 ≠ u := by
    intro q hq hc
    rcases List.mem_filter.1 hq with ⟨_, hq2⟩
    simp only [decide_eq_true_eq] at hq2
    rw [hc] at hq2
    exact hq2 husame
  have hsdne : ∀ q ∈ sd0.filter (fun p2 => p2.1 ∉ collapseSame sd0 rd0),
      q.1 ≠ u := by
    intro q hq hc
    rcases List.mem_filter.1 hq with ⟨_, hq2⟩
    simp only [decide_eq_true_eq] at hq2
    rw [hc] at hq2
    exact hq2 husame
  have hev : (reconcileParsed dir s0 sd0 rd0).events =
      (rd0.filter (fun p2 => p2.1 ∉ collapseSame sd0 rd0)).map
          (fun p2 => BatchEvent.removeUser p2.1) ++
        (sd0.filter (fun p2 => p2.1 ∉ collapseSame sd0 rd0)).map
          (fun p2 => BatchEvent.setUser p2.1) ++
        (mkUpdateDict sd0 rd0).map (fun p2 => BatchEvent.updateUser p2.1) ++
        [BatchEvent.sweep] := by
    rw [reconcileParsed_events, runPhases_events]
  have hC : ((mkUpdateDict sd0 rd0).map
      (fun p2 => BatchEvent.updateUser p2.1)).filter
      (fun ev => ev = BatchEvent.updateUser u) = [BatchEvent.updateUser u] := by
    rw [List.filter_map]
    have hflt : (mkUpdateDict sd0 rd0).filter
        ((fun ev => decide (ev = BatchEvent.updateUser u)) ∘
          (fun p2 => BatchEvent.updateUser p2.1)) =
        (mkUpdateDict sd0 rd0).filter (fun p2 => p2.1 = u) := by
      apply List.filter_congr
      intro q _
      simp [Function.comp]
    rw [hflt, filter_key_of_nodup hudnodup hud]
    rfl
  refine ⟨?_, ?_, ?_, ?_, ?_⟩
  · rw [hev]
    rw [List.filter_append, List.filter_append, List.filter_append, hC]
    rw [filter_eq_nil_of_ne _ _ ?hA, filter_eq_nil_of_ne _ _ ?hB,
      filter_eq_nil_of_ne _ _ ?hD]
    case hA =>
      intro ev hevm
      rcases List.mem_map.1 hevm with ⟨x, _, hx⟩
      rw [← hx]
      simp
    case hB =>
      intro ev hevm
      rcases List.mem_map.1 hevm with ⟨x, _, hx⟩
      rw [← hx]
      simp
    case hD =>
      intro ev hevm
      rw [List.mem_singleton] at hevm
      subst hevm
      simp
    simp
  · rw [hev]
    rw [List.filter_append, List.filter_append, List.filter_append]
    rw [filter_eq_nil_of_ne _ _ ?h1, filter_eq_nil_of_ne _ _ ?h2,
      filter_eq_nil_of_ne _ _ ?h3, filter_eq_nil_of_ne _ _ ?h4]
    case h1 =>
      intro ev hevm
      rcases List.mem_map.1 hevm with ⟨x, hxm, hx⟩
      rw [← hx]
      intro hc
      exact hrdne x hxm (BatchEvent.removeUser.inj hc)
    case h2 =>
      intro ev hevm
      rcases List.mem_map.1 hevm with ⟨x, _, hx⟩
      rw [← hx]
      simp
    case h3 =>
      intro ev hevm
      rcases List.mem_map.1 hevm with ⟨x, _, hx⟩
      rw [← hx]
      simp
    case h4 =>
      intro ev hevm
      rw [List.mem_singleton] at hevm
      subst hevm
      simp
    simp
  · rw [hev]
    rw [List.filter_append, List.filter_append, List.filter_append]
    rw [filter_eq_nil_of_ne _ _ ?g1, filter_eq_nil_of_ne _ _ ?g2,
      filter_eq_nil_of_ne _ _ ?g3, filter_eq_nil_of_ne _ _ ?g4]
    case g1 =>
      intro ev hevm
      rcases List.mem_map.1 hevm with ⟨x, _, hx⟩
      rw [← hx]
      simp
    case g2 =>
      intro ev hevm
      rcases List.mem_map.1 hevm with ⟨x, hxm, hx⟩
      rw [← hx]
      intro hc
      exact hsdne x hxm (BatchEvent.setUser.inj hc)
    case g3 =>
      intro ev hevm
      rcases List.mem_map.1 hevm with ⟨x, _, hx⟩
      rw [← hx]
      simp
    case g4 =>
      intro ev hevm
      rw [List.mem_singleton] at hevm
      subst hevm
      simp
    simp
  · rw [reconcileParsed_okusers, runPhases_eq]
    exact updatePhase_adds_ok dir _ _ _ _ _ u ra a0 sm0 hud (by rw [hres]; rfl)
  · obtain ⟨pre, post, hsplit⟩ := List.append_of_mem hud
    have hpostne : ∀ q ∈ post, q.1 ≠ u := by
      intro q hq hc
      have hnd2 : ((pre ++ (u, ra, a0, sm0) :: post).map (fun q2 => q2.1)).Nodup := by
        rw [← hsplit]
        exact hudnodup
      rw [List.map_append, List.map_cons] at hnd2
      have hcons := (List.nodup_append.1 hnd2).2.1
      rw [List.nodup_cons] at hcons
      exact hcons.1 (hc ▸ List.mem_map.2 ⟨q, hq, rfl⟩)
    have hpost : ∀ q ∈ post, validUserIDForShare dir q.1 ≠ some p := by
      intro q hq
      have hqud : q ∈ mkUpdateDict sd0 rd0 := by
        rw [hsplit]
        exact List.mem_append.2 (Or.inr (List.mem_cons_of_mem _ hq))
      have hqsame : q.1 ∈ collapseSame sd0 rd0 := by
        rw [← mkUpdateDict_keys]
        exact List.mem_map.2 ⟨q, hqud, rfl⟩
      rcases List.mem_map.1 (mem_collapseSame.1 hqsame).1 with ⟨q2, hq2, hq2u⟩
      have hres2 := halias q2 hq2 (by rw [hq2u]; exact hpostne q hq)
      rw [hq2u] at hres2
      exact hres2
    obtain ⟨S, hS⟩ : ∃ S, S = setPhase dir
        (removePhase s0 [] [] []
          (rd0.filter (fun p2 => p2.1 ∉ collapseSame sd0 rd0))).1
        (removePhase s0 [] [] []
          (rd0.filter (fun p2 => p2.1 ∉ collapseSame sd0 rd0))).2.1
        (removePhase s0 [] [] []
          (rd0.filter (fun p2 => p2.1 ∉ collapseSame sd0 rd0))).2.2.1
        (removePhase s0 [] [] []
          (rd0.filter (fun p2 => p2.1 ∉ collapseSame sd0 rd0))).2.2.2
        (sd0.filter (fun p2 => p2.1 ∉ collapseSame sd0 rd0)) := ⟨_, rfl⟩
    have hrp : runPhases dir s0 sd0 rd0 =
        updatePhase dir S.1 S.2.1 S.2.2.1 S.2.2.2 (mkUpdateDict sd0 rd0) := by
      rw [runPhases_eq, ← hS]
    have hg2 : goodStore S.1 := by
      rw [hS]
      exact setPhase_good dir _ _ _ _ _ (removePhase_good _ _ _ _ _ hgood)
    obtain ⟨hrows0, hgood3⟩ := updatePhase_rowsFor_through dir p pre post u ra a0
      sm0 hres hpost S.1 S.2.1 S.2.2.1 S.2.2.2 hg2
    rw [← hsplit] at hrows0 hgood3
    rw [← hrp] at hrows0 hgood3
    obtain ⟨row2, hrow2, hru, hri, hra2, hrs⟩ :=
      validateInvites_rowsFor dir p _ (runPhases dir s0 sd0 rd0).1.store
        hgood3.2.1 hrows0
    refine ⟨row2, ?_, hru, hra2, hrs⟩
    rw [reconcileParsed_store]
    exact hrow2

/-- Witness for C1: removing and re-adding bob in one batch counts bob in
okUsers. -/
theorem collapse_remove_set_into_update_witness :
    "bob" ∈ (reconcileParsed exampleDir exampleShare
      [("bob", AccessXML.readWriteAccess, "s")] [("bob", none)]).okusers :=
  (collapse_remove_set_into_update exampleDir exampleShare
    [InviteItem.set ⟨some "bob", some AccessXML.readWriteAccess, some "s"⟩,
     InviteItem.remove ⟨some "bob", []⟩]
    [("bob", AccessXML.readWriteAccess, "s")] [("bob", none)]
    (reconcileParsed exampleDir exampleShare
      [("bob", AccessXML.readWriteAccess, "s")] [("bob", none)])
    "bob" "/principals/users/bob" AccessXML.readWriteAccess "s" none
    (by decide) (by decide) (by decide) (by decide) (by decide) (by decide)
    (by decide)).2.2.2.1
